import Mathlib

/-!
Verification of the cldpm core (dependency resolver, symlink synchronization
engine, remote staged-retrieval path construction) against its natural-language
specification.  The definitions below are a shallow embedding of the TypeScript
sources in `src/typescript/src/core/config.ts` (config loading), `resolver.ts`
(dependency resolution), `linker.ts` (symlink synchronization) and
`src/typescript/src/commands/get.ts` together with `src/utils/git.ts`
(remote sparse retrieval).  Filesystem effects are modelled as explicit state:
a directory listing is an association list of names to filesystem entries, and
the per-kind ignore manifest (`.gitignore`) is carried as a separate field of
the kind-directory state (no linker operation ever treats the ignore file as a
regular component entry: every scan skips dot-names).
-/

/-- The four component kinds, `ComponentTypes` in `schemas/component.ts`
(`["skills", "agents", "hooks", "rules"]`). -/
inductive ComponentType where
  | skills
  | agents
  | hooks
  | rules
deriving DecidableEq, Repr

/-- The list `ComponentTypes`, in its source order. -/
def ComponentTypes : List ComponentType :=
  [ComponentType.skills, ComponentType.agents, ComponentType.hooks, ComponentType.rules]

/-- The storage-directory (plural) spelling of a kind, as used in paths and in
the `"<kind>/<name>"` strings pushed onto `created` and `missing`. -/
def componentTypeStr : ComponentType → String
  | ComponentType.skills => "skills"
  | ComponentType.agents => "agents"
  | ComponentType.hooks => "hooks"
  | ComponentType.rules => "rules"

/-- A dependency set: four lists of component names keyed by kind
(`ComponentDependencies` in the schemas). -/
structure Dependencies where
  skills : List String
  agents : List String
  hooks : List String
  rules : List String
deriving DecidableEq, Repr

/-- Field access `dependencies[depType]`. -/
def Dependencies.get : Dependencies → ComponentType → List String
  | d, ComponentType.skills => d.skills
  | d, ComponentType.agents => d.agents
  | d, ComponentType.hooks => d.hooks
  | d, ComponentType.rules => d.rules

/-- Field update `dependencies[depType] = v`. -/
def Dependencies.set : Dependencies → ComponentType → List String → Dependencies
  | d, ComponentType.skills, v => { d with skills := v }
  | d, ComponentType.agents, v => { d with agents := v }
  | d, ComponentType.hooks, v => { d with hooks := v }
  | d, ComponentType.rules, v => { d with rules := v }

/-- `createComponentDependencies()`: four empty lists. -/
def emptyDependencies : Dependencies := ⟨[], [], [], []⟩

/-- Component metadata (`skill.json` / `agent.json` / ... content), reduced to
the fields the resolver reads: `name` and `dependencies`.  Passthrough fields
are irrelevant to every claim treated here. -/
structure ComponentMetadata where
  name : String
  dependencies : Dependencies
deriving DecidableEq, Repr

/-- A component key, `kind:name` in the visited set of the resolver. -/
abbrev Key := ComponentType × String

/-- The shared-components area of a repository.  An entry `((t, n), v)` means
the directory `<sharedDir>/<t>/<n>` exists; `v = some md` means its metadata
file exists, is readable and parses to `md`, while `v = none` means the
metadata file is missing, unreadable or fails schema parsing. -/
structure Repo where
  comps : List (Key × Option ComponentMetadata)
deriving DecidableEq, Repr

/-- First-match association-list lookup (the filesystem has one directory per
key). -/
def lookupComp : List (Key × Option ComponentMetadata) → Key → Option (Option ComponentMetadata)
  | [], _ => none
  | (k, v) :: rest, key => if k = key then some v else lookupComp rest key

/-- `loadComponentMetadata` (config.ts lines 142-170): `access(compPath)`
failing (component directory absent) yields `null`; otherwise the metadata
file is read and parsed, and any failure there is caught and replaced by the
minimal metadata `{name: compName, dependencies: createComponentDependencies()}`. -/
def loadComponentMetadata (repo : Repo) (compType : ComponentType) (compName : String) :
    Option ComponentMetadata :=
  match lookupComp repo.comps (compType, compName) with
  | none => none
  | some parsed => some (parsed.getD ⟨compName, emptyDependencies⟩)

/-- The keys of a dependency set in the iteration order used throughout the
sources: kinds in `ComponentTypes` order, names in list order. -/
def dependencyKeys (deps : Dependencies) : List Key :=
  deps.skills.map (fun n => (ComponentType.skills, n)) ++
    deps.agents.map (fun n => (ComponentType.agents, n)) ++
      deps.hooks.map (fun n => (ComponentType.hooks, n)) ++
        deps.rules.map (fun n => (ComponentType.rules, n))

/-- The dependency keys of a metadata object in the iteration order of
`resolveComponentDependencies`. -/
def metadataDeps (md : ComponentMetadata) : List Key :=
  dependencyKeys md.dependencies

/-- Every dependency key mentioned by any parsed metadata file of the
repository.  Used only to bound the recursion depth of the resolver. -/
def mentionedKeys : List (Key × Option ComponentMetadata) → List Key
  | [] => []
  | (_, none) :: rest => mentionedKeys rest
  | (_, some md) :: rest => metadataDeps md ++ mentionedKeys rest

/-- The dependency loop of `resolveComponentDependencies` (resolver.ts lines
487-501), abstracted over the recursive expansion step `f`: for each declared
dependency key, push it, then push its transitive expansion, threading the
visited set across sibling calls (the source mutates one shared `Set`). -/
def resolveDepsLoop (f : Key → List Key → Option (List Key × List Key)) :
    List Key → List Key → Option (List Key × List Key)
  | [], visited => some ([], visited)
  | d :: rest, visited =>
      match f d visited with
      | none => none
      | some (ds₁, v₁) =>
          match resolveDepsLoop f rest v₁ with
          | none => none
          | some (ds₂, v₂) => some (d :: (ds₁ ++ ds₂), v₂)

/-- `resolveComponentDependencies` (resolver.ts lines 468-504), with an
explicit fuel argument standing in for the well-foundedness of the recursion
(the visited set strictly grows on every recursive expansion, see
`resolveOneF_isSome_of_fuel`): an already-visited key is not re-expanded, a
key whose component directory is absent is recorded as visited and expands to
nothing, and otherwise each dependency of the loaded metadata is pushed
followed by its own expansion.  Returns `(deps, visited)` on success and
`none` only on fuel exhaustion, which `resolveOneF_isSome_of_fuel` proves
unreachable at the fuel `resolveComponentDependencies` supplies. -/
def resolveOneF (repo : Repo) : Nat → Key → List Key → Option (List Key × List Key)
  | 0, _, _ => none
  | fuel + 1, key, visited =>
      if key ∈ visited then
        some ([], visited)
      else
        match loadComponentMetadata repo key.1 key.2 with
        | none => some ([], key :: visited)
        | some md => resolveDepsLoop (resolveOneF repo fuel) (metadataDeps md) (key :: visited)

/-- Every key the traversal rooted at `key` can ever visit: the root plus
every key mentioned in any metadata file. -/
def resolveUniverse (repo : Repo) (key : Key) : List Key :=
  key :: mentionedKeys repo.comps

/-- Fuel sufficient for the traversal rooted at `key` (one more than the
number of candidate visited-set members). -/
def resolveFuel (repo : Repo) (key : Key) : Nat :=
  (resolveUniverse repo key).length + 1

/-- `resolveComponentDependencies(compType, compName, repoRoot)` with its
default fresh (empty) visited set, as called by
`getAllDependenciesForComponent` and by the `add` command. -/
def resolveComponentDependencies (repo : Repo) (compType : ComponentType)
    (compName : String) : List Key :=
  match resolveOneF repo (resolveFuel repo (compType, compName)) (compType, compName) [] with
  | some r => r.1
  | none => []

/-- One step of the deduplicating accumulation loop of
`getAllDependenciesForComponent`: skip a name already present in its kind's
result list, otherwise push it at the end. -/
def depsAccAdd (acc : Dependencies) (k : Key) : Dependencies :=
  if k.2 ∈ acc.get k.1 then acc else acc.set k.1 (acc.get k.1 ++ [k.2])

/-- `getAllDependenciesForComponent` (resolver.ts lines 509-530): resolve the
raw transitive list, then bucket it by kind, dropping duplicates and keeping
first occurrences. -/
def getAllDependenciesForComponent (repo : Repo) (compType : ComponentType)
    (compName : String) : Dependencies :=
  (resolveComponentDependencies repo compType compName).foldl depsAccAdd emptyDependencies

/-- A filesystem path: an absolute-or-relative flag plus a segment list.
Node's `path.join`/`path.relative` on the POSIX paths built by the linker
reduce to this (the linker never feeds `..` or `.` segments into `join`). -/
structure FsPath where
  isAbs : Bool
  segs : List String
deriving DecidableEq, Repr

/-- `path.join(p, s)` for a single trailing segment. -/
def FsPath.join (p : FsPath) (s : String) : FsPath :=
  ⟨p.isAbs, p.segs ++ [s]⟩

/-- The segment-splitting step of `path.relative`: strip the longest common
prefix of the two resolved paths. -/
def splitAtCommon : List String → List String → List String × List String
  | a :: as, b :: bs => if a = b then splitAtCommon as bs else (a :: as, b :: bs)
  | as, bs => (as, bs)

/-- `path.relative(fromPath, toPath)`: climb out of what remains of `fromPath`
with `..` segments and descend into what remains of `toPath`.  The result is
always a relative path. -/
def FsPath.relative (fromPath toPath : FsPath) : FsPath :=
  ⟨false,
    (splitAtCommon fromPath.segs toPath.segs).1.map (fun _ => "..") ++
      (splitAtCommon fromPath.segs toPath.segs).2⟩

/-- What `lstat` reports for one directory entry.  A symlink records its raw
(unresolved) target string and whether `access` on it succeeds, i.e. whether
following the link reaches an existing file (`resolvable = false` models a
dangling link). -/
inductive FsEntry where
  | symlink (target : FsPath) (resolvable : Bool)
  | dir
  | file
deriving DecidableEq, Repr

/-- `lstat(...).isSymbolicLink()`. -/
def FsEntry.isSymlink : FsEntry → Bool
  | FsEntry.symlink _ _ => true
  | _ => false

/-- `pathExists` (an `access` call, which follows symlinks) evaluated at an
existing directory entry. -/
def FsEntry.accessOk : FsEntry → Bool
  | FsEntry.symlink _ resolvable => resolvable
  | _ => true

/-- A directory listing: names paired with what `lstat` reports for them.
Real directories have unique names; the operations below read the first match
like the filesystem would. -/
abbrev Entries := List (String × FsEntry)

/-- Look up a directory entry by name (first match). -/
def findEntry : Entries → String → Option FsEntry
  | [], _ => none
  | (m, e) :: rest, n => if m = n then some e else findEntry rest n

/-- Write a directory entry: replace the first entry of that name in place, or
append a new one. -/
def setEntry : Entries → String → FsEntry → Entries
  | [], n, e => [(n, e)]
  | (m, x) :: rest, n, e => if m = n then (n, e) :: rest else (m, x) :: setEntry rest n e

/-- `createSymlink(source, target)` (linker.ts lines 598-626) acting on the
listing of the link's parent directory, where `name` is the link's file name,
`parent` the parent directory path (`join(target, "..")` in the source) and
`sourceOk` whether `access(source)` would succeed (the new link's target
resolves).  If the slot exists and `access` on it succeeds: an existing
symlink is unlinked and recreated, anything else is left alone with `false`.
If the slot holds an entry `access` cannot follow (a dangling symlink), the
`symlink` syscall itself fails with `EEXIST`, caught as `false`.  The raw
link target stored is `relative(parent, source)`. -/
def createSymlink (es : Entries) (name : String) (parent source : FsPath)
    (sourceOk : Bool) : Entries × Bool :=
  match findEntry es name with
  | some e =>
      if e.accessOk then
        if e.isSymlink then
          (setEntry es name (FsEntry.symlink (FsPath.relative parent source) sourceOk), true)
        else
          (es, false)
      else
        (es, false)
  | none => (setEntry es name (FsEntry.symlink (FsPath.relative parent source) sourceOk), true)

/-- The single-kind body of `removeProjectLinks` (linker.ts lines 631-656):
unlink exactly the entries whose `lstat` reports a symlink. -/
def removeSymlinkEntries (es : Entries) : Entries :=
  es.filter (fun p => !p.2.isSymlink)

/-- `CLDPM_GITIGNORE_HEADER`: the sentinel first line of a machine-generated
ignore manifest. -/
def gitignoreHeader : String := "# CLDPM shared components (auto-generated)\n"

/-- `updateComponentGitignore(compDir, symlinks)` (linker.ts lines 661-685)
acting on the ignore-manifest content (`none` = file absent): with zero
symlinks, delete the file only when its content starts with the sentinel
header; otherwise write the header followed by the symlinked names. -/
def updateComponentGitignore (gitignore : Option String) (symlinks : List String) :
    Option String :=
  if symlinks = [] then
    match gitignore with
    | none => none
    | some content => if content.startsWith gitignoreHeader then none else some content
  else
    some (gitignoreHeader ++ String.intercalate "\n" symlinks ++ "\n")

/-- `getSharedComponentsInDir`: the names of the non-dot entries whose `lstat`
reports a symlink, in directory order. -/
def getSharedComponentsInDir (es : Entries) : List String :=
  (es.filter (fun p => !p.1.startsWith "." && p.2.isSymlink)).map (fun p => p.1)

/-- One kind directory of a project's `.claude` area: its listing plus the
ignore-manifest content, carried separately because every linker scan skips
dot-names. -/
structure KindDir where
  entries : Entries
  gitignore : Option String
deriving DecidableEq, Repr

/-- The four per-kind link directories of a project. -/
structure ClaudeDir where
  skills : KindDir
  agents : KindDir
  hooks : KindDir
  rules : KindDir
deriving DecidableEq, Repr

/-- Select the kind directory. -/
def ClaudeDir.get : ClaudeDir → ComponentType → KindDir
  | st, ComponentType.skills => st.skills
  | st, ComponentType.agents => st.agents
  | st, ComponentType.hooks => st.hooks
  | st, ComponentType.rules => st.rules

/-- Replace the kind directory. -/
def ClaudeDir.set : ClaudeDir → ComponentType → KindDir → ClaudeDir
  | st, ComponentType.skills, d => { st with skills := d }
  | st, ComponentType.agents, d => { st with agents := d }
  | st, ComponentType.hooks, d => { st with hooks := d }
  | st, ComponentType.rules, d => { st with rules := d }

/-- `removeProjectLinks(projectPath)`: for every kind, unlink each symlink of
the kind directory (a missing kind directory is the empty listing and the
filter is a no-op there). -/
def removeProjectLinks (st : ClaudeDir) : ClaudeDir :=
  ⟨⟨removeSymlinkEntries st.skills.entries, st.skills.gitignore⟩,
    ⟨removeSymlinkEntries st.agents.entries, st.agents.gitignore⟩,
    ⟨removeSymlinkEntries st.hooks.entries, st.hooks.gitignore⟩,
    ⟨removeSymlinkEntries st.rules.entries, st.rules.gitignore⟩⟩

/-- The outcome of the dependency loop of `syncProjectLinks` for one kind. -/
structure KindSyncOut where
  entries : Entries
  created : List String
  missing : List String
  symlinks : List String
deriving DecidableEq, Repr

/-- The inner dependency loop of `syncProjectLinks` for one kind: for each
declared name, a missing shared source is recorded under `missing` and the
loop continues; otherwise `createSymlink` runs and, on success, the
`"<kind>/<name>"` string is pushed under `created` and the bare name under the
kind's `symlinks` accumulator. -/
def syncDeps (shex : String → Bool) (compType : ComponentType)
    (typeDirPath sharedKindPath : FsPath) : List String → Entries → KindSyncOut
  | [], es => ⟨es, [], [], []⟩
  | n :: rest, es =>
      if shex n then
        match createSymlink es n typeDirPath (sharedKindPath.join n) true with
        | (es', true) =>
            let out := syncDeps shex compType typeDirPath sharedKindPath rest es'
            ⟨out.entries, (componentTypeStr compType ++ "/" ++ n) :: out.created,
              out.missing, n :: out.symlinks⟩
        | (es', false) =>
            let out := syncDeps shex compType typeDirPath sharedKindPath rest es'
            ⟨out.entries, out.created, out.missing, out.symlinks⟩
      else
        let out := syncDeps shex compType typeDirPath sharedKindPath rest es
        ⟨out.entries, out.created,
          (componentTypeStr compType ++ "/" ++ n) :: out.missing, out.symlinks⟩

/-- One kind's pass of `syncProjectLinks`: ensure the kind directory exists
(a no-op on the state model), run the dependency loop, then rewrite the
kind's ignore manifest from the accumulated symlink names. -/
def syncOneKind (shex : String → Bool) (compType : ComponentType)
    (claudePath sharedPath : FsPath) (depNames : List String) (d : KindDir) :
    KindDir × List String × List String :=
  match syncDeps shex compType (claudePath.join (componentTypeStr compType))
      (sharedPath.join (componentTypeStr compType)) depNames d.entries with
  | out => (⟨out.entries, updateComponentGitignore d.gitignore out.symlinks⟩,
      out.created, out.missing)

/-- The result of `syncProjectLinks`: the new link-directory state plus the
`created` and `missing` reports. -/
structure SyncResult where
  dirs : ClaudeDir
  created : List String
  missing : List String
deriving DecidableEq, Repr

/-- `syncProjectLinks(projectPath, repoRoot)` (linker.ts lines 690-734).
`shex t n` is `pathExists(join(sharedDir, t, n))`: whether the shared
component directory exists.  `claudePath` is `join(projectPath, ".claude")`
and `sharedPath` is `join(repoRoot, sharedDir)`.  Existing symlinks are
removed first; then each kind is processed in `ComponentTypes` order. -/
def syncProjectLinks (shex : ComponentType → String → Bool)
    (claudePath sharedPath : FsPath) (deps : Dependencies) (st : ClaudeDir) : SyncResult :=
  match removeProjectLinks st with
  | st₀ =>
      match syncOneKind (shex ComponentType.skills) ComponentType.skills
          claudePath sharedPath deps.skills st₀.skills,
        syncOneKind (shex ComponentType.agents) ComponentType.agents
          claudePath sharedPath deps.agents st₀.agents,
        syncOneKind (shex ComponentType.hooks) ComponentType.hooks
          claudePath sharedPath deps.hooks st₀.hooks,
        syncOneKind (shex ComponentType.rules) ComponentType.rules
          claudePath sharedPath deps.rules st₀.rules with
      | (dS, cS, mS), (dA, cA, mA), (dH, cH, mH), (dR, cR, mR) =>
          ⟨⟨dS, dA, dH, dR⟩, cS ++ (cA ++ (cH ++ cR)), mS ++ (mA ++ (mH ++ mR))⟩

/-- `addComponentLink(projectPath, compType, compName, repoRoot)` (linker.ts
lines 739-766): fail when the shared source is absent; otherwise create the
single link and, on success, rewrite the kind's ignore manifest from a fresh
scan of the directory's symlinks. -/
def addComponentLink (shex : ComponentType → String → Bool)
    (claudePath sharedPath : FsPath) (compType : ComponentType) (compName : String)
    (st : ClaudeDir) : ClaudeDir × Bool :=
  if shex compType compName then
    match createSymlink (st.get compType).entries compName
        (claudePath.join (componentTypeStr compType))
        ((sharedPath.join (componentTypeStr compType)).join compName) true with
    | (es', true) =>
        (st.set compType
          ⟨es', updateComponentGitignore (st.get compType).gitignore
            (getSharedComponentsInDir es')⟩, true)
    | (es', false) => (st.set compType ⟨es', (st.get compType).gitignore⟩, false)
  else
    (st, false)

/-- The phase-3 sparse-checkout path list built by `handleRemoteGetSparse`
(get.ts lines 258-268): the project directory `"<projectsDir>/<projectName>"`
followed by `"<sharedDir>/<depType>/<depName>"` for each dependency declared
in the staged `project.json`, kinds in `["skills","agents","hooks","rules"]`
order. -/
def phase3Paths (projectsDir sharedDir projectName : String)
    (dependencies : Dependencies) : List String :=
  (projectsDir ++ "/" ++ projectName) ::
    ((dependencyKeys dependencies).map
      (fun k => sharedDir ++ "/" ++ componentTypeStr k.1 ++ "/" ++ k.2))

/-- Modelled from the spec: the path list the specification describes for
phase 3 — "project directory + every transitively-needed shared-component
directory, derived the same way as local resolution but by reading manifest
files out of the staged checkout".  `remote` models the remote repository's
shared-component metadata as it would be read out of a staged checkout; for
each declared dependency its directory and the directories of its full
transitive closure are listed. -/
def specPhase3TransitivePaths (remote : Repo) (projectsDir sharedDir projectName : String)
    (dependencies : Dependencies) : List String :=
  (projectsDir ++ "/" ++ projectName) ::
    ((dependencyKeys dependencies ++
        (dependencyKeys dependencies).foldr
          (fun k acc => resolveComponentDependencies remote k.1 k.2 ++ acc) []).map
      (fun k => sharedDir ++ "/" ++ componentTypeStr k.1 ++ "/" ++ k.2))

/-- The number of universe keys not yet visited: the measure that shrinks on
every recursive expansion of the resolver. -/
def unvisitedCount (uni visited : List Key) : Nat :=
  (uni.filter (fun k => !(decide (k ∈ visited)))).length

theorem resolveDepsLoop_visited_sub
    (f : Key → List Key → Option (List Key × List Key))
    (hf : ∀ d v r, f d v = some r → v ⊆ r.2) :
    ∀ pending visited r, resolveDepsLoop f pending visited = some r → visited ⊆ r.2 := by
  intro pending
  induction pending with
  | nil =>
      intro visited r h
      rw [resolveDepsLoop] at h
      cases h
      exact List.Subset.refl _
  | cons d rest ihp =>
      intro visited r h
      rw [resolveDepsLoop] at h
      cases h1 : f d visited with
      | none => rw [h1] at h; simp at h
      | some r1 =>
          obtain ⟨ds₁, v₁⟩ := r1
          rw [h1] at h
          dsimp only at h
          cases h2 : resolveDepsLoop f rest v₁ with
          | none => rw [h2] at h; simp at h
          | some r2 =>
              obtain ⟨ds₂, v₂⟩ := r2
              rw [h2] at h
              simp only [Option.some.injEq] at h
              cases h
              exact fun x hx => ihp _ _ h2 (hf _ _ _ h1 hx)

theorem resolveOneF_visited_sub (repo : Repo) :
    ∀ fuel key visited r, resolveOneF repo fuel key visited = some r → visited ⊆ r.2 := by
  intro fuel
  induction fuel with
  | zero =>
      intro key visited r h
      simp [resolveOneF] at h
  | succ fuel ih =>
      intro key visited r h
      rw [resolveOneF] at h
      split at h
      · cases h
        exact List.Subset.refl _
      · split at h
        · cases h
          exact List.subset_cons_self _ _
        · exact fun x hx =>
            resolveDepsLoop_visited_sub (resolveOneF repo fuel) ih _ _ _ h
              (List.mem_cons_of_mem _ hx)

theorem resolveDepsLoop_pending_sub
    (f : Key → List Key → Option (List Key × List Key)) :
    ∀ pending visited r, resolveDepsLoop f pending visited = some r → pending ⊆ r.1 := by
  intro pending
  induction pending with
  | nil => intro visited r _ x hx; cases hx
  | cons d rest ihp =>
      intro visited r h
      rw [resolveDepsLoop] at h
      cases h1 : f d visited with
      | none => rw [h1] at h; simp at h
      | some r1 =>
          obtain ⟨ds₁, v₁⟩ := r1
          rw [h1] at h
          dsimp only at h
          cases h2 : resolveDepsLoop f rest v₁ with
          | none => rw [h2] at h; simp at h
          | some r2 =>
              obtain ⟨ds₂, v₂⟩ := r2
              rw [h2] at h
              simp only [Option.some.injEq] at h
              cases h
              intro x hx
              rcases List.mem_cons.mp hx with rfl | hx'
              · exact List.mem_cons_self _ _
              · exact List.mem_cons_of_mem _ (List.mem_append_right _ (ihp _ _ h2 hx'))

theorem resolveOneF_key_mem (repo : Repo) (fuel : Nat) :
    ∀ key visited r, resolveOneF repo fuel key visited = some r → key ∈ r.2 := by
  intro key visited r h
  cases fuel with
  | zero => simp [resolveOneF] at h
  | succ fuel =>
      rw [resolveOneF] at h
      split at h
      · cases h
        assumption
      · split at h
        · cases h
          exact List.mem_cons_self _ _
        · exact resolveDepsLoop_visited_sub (resolveOneF repo fuel)
            (fun d v r' h' => resolveOneF_visited_sub repo fuel d v r' h') _ _ _ h
            (List.mem_cons_self _ _)

theorem resolveDepsLoop_pending_visited
    (f : Key → List Key → Option (List Key × List Key))
    (hfsub : ∀ d v r, f d v = some r → v ⊆ r.2)
    (hfkey : ∀ d v r, f d v = some r → d ∈ r.2) :
    ∀ pending visited r d, resolveDepsLoop f pending visited = some r →
      d ∈ pending → d ∈ r.2 := by
  intro pending
  induction pending with
  | nil => intro visited r d _ hd; cases hd
  | cons p rest ihp =>
      intro visited r d h hd
      rw [resolveDepsLoop] at h
      cases h1 : f p visited with
      | none => rw [h1] at h; simp at h
      | some r1 =>
          obtain ⟨ds₁, v₁⟩ := r1
          rw [h1] at h
          dsimp only at h
          cases h2 : resolveDepsLoop f rest v₁ with
          | none => rw [h2] at h; simp at h
          | some r2 =>
              obtain ⟨ds₂, v₂⟩ := r2
              rw [h2] at h
              simp only [Option.some.injEq] at h
              cases h
              rcases List.mem_cons.mp hd with rfl | hd'
              · have hdv₁ : d ∈ v₁ := hfkey _ _ _ h1
                exact resolveDepsLoop_visited_sub f hfsub _ _ _ h2 hdv₁
              · exact ihp v₁ (ds₂, v₂) d h2 hd'

theorem lookupComp_mem :
    ∀ (l : List (Key × Option ComponentMetadata)) (key : Key) (v : Option ComponentMetadata),
      lookupComp l key = some v → (key, v) ∈ l := by
  intro l
  induction l with
  | nil => intro key v h; rw [lookupComp] at h; cases h
  | cons c rest ih =>
      intro key v h
      obtain ⟨k, w⟩ := c
      rw [lookupComp] at h
      by_cases hk : k = key
      · rw [if_pos hk] at h
        cases h
        exact hk ▸ List.mem_cons_self _ _
      · rw [if_neg hk] at h
        exact List.mem_cons_of_mem _ (ih key v h)

theorem mem_mentionedKeys :
    ∀ (l : List (Key × Option ComponentMetadata)) (k : Key) (md₀ : ComponentMetadata),
      (k, some md₀) ∈ l → ∀ d ∈ metadataDeps md₀, d ∈ mentionedKeys l := by
  intro l
  induction l with
  | nil => intro k md₀ h; cases h
  | cons c rest ih =>
      intro k md₀ h d hd
      rcases List.mem_cons.mp h with rfl | h'
      · rw [mentionedKeys]
        exact List.mem_append_left _ hd
      · obtain ⟨k', w⟩ := c
        cases w with
        | none => rw [mentionedKeys]; exact ih k md₀ h' d hd
        | some mdw => rw [mentionedKeys]; exact List.mem_append_right _ (ih k md₀ h' d hd)

theorem metadataDeps_sub_mentioned (repo : Repo) (t : ComponentType) (n : String)
    (md : ComponentMetadata) (h : loadComponentMetadata repo t n = some md) :
    ∀ d ∈ metadataDeps md, d ∈ mentionedKeys repo.comps := by
  unfold loadComponentMetadata at h
  revert h
  generalize hl : lookupComp repo.comps (t, n) = parsed
  intro h
  cases parsed with
  | none => exact Option.noConfusion h
  | some v =>
      simp only [Option.some.injEq] at h
      have hmem : ((t, n), v) ∈ repo.comps := lookupComp_mem _ _ _ hl
      cases v with
      | none =>
          intro d hd
          rw [← h] at hd
          simp [metadataDeps, dependencyKeys, emptyDependencies, Option.getD] at hd
      | some md₀ =>
          intro d hd
          rw [← h] at hd
          simp only [Option.getD] at hd
          exact mem_mentionedKeys _ _ _ hmem d hd

theorem unvisitedCount_le_of_subset (uni : List Key) :
    ∀ v w : List Key, v ⊆ w → unvisitedCount uni w ≤ unvisitedCount uni v := by
  induction uni with
  | nil => intro v w _; exact Nat.le_refl _
  | cons a rest ih =>
      intro v w hvw
      by_cases haw : a ∈ w
      · by_cases hav : a ∈ v
        · have h1 : unvisitedCount (a :: rest) w = unvisitedCount rest w := by
            simp [unvisitedCount, List.filter_cons, haw]
          have h2 : unvisitedCount (a :: rest) v = unvisitedCount rest v := by
            simp [unvisitedCount, List.filter_cons, hav]
          rw [h1, h2]
          exact ih v w hvw
        · have h1 : unvisitedCount (a :: rest) w = unvisitedCount rest w := by
            simp [unvisitedCount, List.filter_cons, haw]
          have h2 : unvisitedCount (a :: rest) v = unvisitedCount rest v + 1 := by
            simp [unvisitedCount, List.filter_cons, hav]
          rw [h1, h2]
          exact Nat.le_succ_of_le (ih v w hvw)
      · have hav : a ∉ v := fun hv => haw (hvw hv)
        have h1 : unvisitedCount (a :: rest) w = unvisitedCount rest w + 1 := by
          simp [unvisitedCount, List.filter_cons, haw]
        have h2 : unvisitedCount (a :: rest) v = unvisitedCount rest v + 1 := by
          simp [unvisitedCount, List.filter_cons, hav]
        rw [h1, h2]
        exact Nat.succ_le_succ (ih v w hvw)

theorem unvisitedCount_cons_lt (uni : List Key) :
    ∀ (v : List Key) (key : Key), key ∈ uni → key ∉ v →
      unvisitedCount uni (key :: v) < unvisitedCount uni v := by
  induction uni with
  | nil => intro v key hk _; cases hk
  | cons a rest ih =>
      intro v key hk hkv
      by_cases hak : a ∈ key :: v
      · have h1 : unvisitedCount (a :: rest) (key :: v) = unvisitedCount rest (key :: v) := by
          rcases List.mem_cons.mp hak with rfl | hav'
          · simp [unvisitedCount, List.filter_cons]
          · simp [unvisitedCount, List.filter_cons, hav']
        by_cases hav : a ∈ v
        · have h2 : unvisitedCount (a :: rest) v = unvisitedCount rest v := by
            simp [unvisitedCount, List.filter_cons, hav]
          have hkr : key ∈ rest := by
            rcases List.mem_cons.mp hk with rfl | h
            · exact absurd hav hkv
            · exact h
          rw [h1, h2]
          exact ih v key hkr hkv
        · have h2 : unvisitedCount (a :: rest) v = unvisitedCount rest v + 1 := by
            simp [unvisitedCount, List.filter_cons, hav]
          rw [h1, h2]
          exact Nat.lt_succ_of_le
            (unvisitedCount_le_of_subset rest v (key :: v) (List.subset_cons_self _ _))
      · have hav : a ∉ v := fun h => hak (List.mem_cons_of_mem _ h)
        have hkr : key ∈ rest := by
          rcases List.mem_cons.mp hk with rfl | h
          · exact absurd (List.mem_cons_self _ _) hak
          · exact h
        have hne : ¬a = key := fun h => hak (h ▸ List.mem_cons_self _ _)
        have h1 : unvisitedCount (a :: rest) (key :: v) =
            unvisitedCount rest (key :: v) + 1 := by
          simp [unvisitedCount, List.filter_cons, hne, hav]
        have h2 : unvisitedCount (a :: rest) v = unvisitedCount rest v + 1 := by
          simp [unvisitedCount, List.filter_cons, hav]
        rw [h1, h2]
        exact Nat.succ_lt_succ (ih v key hkr hkv)


theorem resolveDepsLoop_isSome
    (f : Key → List Key → Option (List Key × List Key)) (uni : List Key) (bound : Nat)
    (hfsub : ∀ d v r, f d v = some r → v ⊆ r.2)
    (hfsome : ∀ d v, d ∈ uni → unvisitedCount uni v < bound → (f d v).isSome = true) :
    ∀ pending visited, (∀ d ∈ pending, d ∈ uni) → unvisitedCount uni visited < bound →
      (resolveDepsLoop f pending visited).isSome = true := by
  intro pending
  induction pending with
  | nil =>
      intro visited _ _
      rw [resolveDepsLoop]
      rfl
  | cons d rest ihp =>
      intro visited hp hcnt
      rw [resolveDepsLoop]
      have h1 := hfsome d visited (hp d (List.mem_cons_self _ _)) hcnt
      cases hr1 : f d visited with
      | none => rw [hr1] at h1; cases h1
      | some r1 =>
          obtain ⟨ds₁, v₁⟩ := r1
          dsimp only
          have hsub : visited ⊆ v₁ := hfsub _ _ _ hr1
          have hcnt2 : unvisitedCount uni v₁ < bound :=
            Nat.lt_of_le_of_lt (unvisitedCount_le_of_subset uni visited v₁ hsub) hcnt
          have h2 := ihp v₁ (fun x hx => hp x (List.mem_cons_of_mem _ hx)) hcnt2
          cases hr2 : resolveDepsLoop f rest v₁ with
          | none => rw [hr2] at h2; cases h2
          | some r2 =>
              obtain ⟨ds₂, v₂⟩ := r2
              rfl

theorem resolveOneF_isSome_of_fuel (repo : Repo) (uni : List Key)
    (hm : ∀ k ∈ mentionedKeys repo.comps, k ∈ uni) :
    ∀ fuel key visited, key ∈ uni → unvisitedCount uni visited < fuel →
      (resolveOneF repo fuel key visited).isSome = true := by
  intro fuel
  induction fuel with
  | zero => intro key visited _ hcnt; exact absurd hcnt (Nat.not_lt_zero _)
  | succ fuel ih =>
      intro key visited hk hcnt
      rw [resolveOneF]
      by_cases hkv : key ∈ visited
      · rw [if_pos hkv]
        rfl
      · rw [if_neg hkv]
        cases hload : loadComponentMetadata repo key.1 key.2 with
        | none => rfl
        | some md =>
            dsimp only
            have hlt : unvisitedCount uni (key :: visited) < unvisitedCount uni visited :=
              unvisitedCount_cons_lt uni visited key hk hkv
            apply resolveDepsLoop_isSome (resolveOneF repo fuel) uni fuel
              (fun d v r h' => resolveOneF_visited_sub repo fuel d v r h')
              (fun d v hd hcnt' => ih d v hd hcnt')
            · intro d hd
              exact hm d (metadataDeps_sub_mentioned repo key.1 key.2 md hload d hd)
            · omega

theorem resolveOneF_total (repo : Repo) (t : ComponentType) (n : String) :
    (resolveOneF repo (resolveFuel repo (t, n)) (t, n) []).isSome = true := by
  apply resolveOneF_isSome_of_fuel repo (resolveUniverse repo (t, n))
    (fun k hk => List.mem_cons_of_mem _ hk)
  · exact List.mem_cons_self _ _
  · have hle : unvisitedCount (resolveUniverse repo (t, n)) [] ≤
        (resolveUniverse repo (t, n)).length := by
      simp [unvisitedCount]
    unfold resolveFuel
    omega

theorem resolveDepsLoop_expands (B : Key) (C : Key)
    (f : Key → List Key → Option (List Key × List Key))
    (hfM : ∀ key v r, f key v = some r → B ∉ v → B ∈ r.2 → C ∈ r.1) :
    ∀ pending visited r, resolveDepsLoop f pending visited = some r →
      B ∉ visited → B ∈ r.2 → C ∈ r.1 := by
  intro pending
  induction pending with
  | nil =>
      intro visited r h hBv hBr
      rw [resolveDepsLoop] at h
      cases h
      exact absurd hBr hBv
  | cons d rest ihp =>
      intro visited r h hBv hBr
      rw [resolveDepsLoop] at h
      cases h1 : f d visited with
      | none => rw [h1] at h; simp at h
      | some r1 =>
          obtain ⟨ds₁, v₁⟩ := r1
          rw [h1] at h
          dsimp only at h
          cases h2 : resolveDepsLoop f rest v₁ with
          | none => rw [h2] at h; simp at h
          | some r2 =>
              obtain ⟨ds₂, v₂⟩ := r2
              rw [h2] at h
              simp only [Option.some.injEq] at h
              cases h
              by_cases hBv1 : B ∈ v₁
              · have hc := hfM _ _ _ h1 hBv hBv1
                exact List.mem_cons_of_mem _ (List.mem_append_left _ hc)
              · have hc := ihp v₁ (ds₂, v₂) h2 hBv1 hBr
                exact List.mem_cons_of_mem _ (List.mem_append_right _ hc)

theorem resolveOneF_expands (repo : Repo) (B : Key) (mdB : ComponentMetadata)
    (C : Key) (hB : loadComponentMetadata repo B.1 B.2 = some mdB)
    (hC : C ∈ metadataDeps mdB) :
    ∀ fuel key visited r, resolveOneF repo fuel key visited = some r →
      B ∉ visited → B ∈ r.2 → C ∈ r.1 := by
  intro fuel
  induction fuel with
  | zero =>
      intro key visited r h
      simp [resolveOneF] at h
  | succ fuel ih =>
      intro key visited r h hBv hBr
      rw [resolveOneF] at h
      split at h
      · cases h
        exact absurd hBr hBv
      · rename_i hkv
        cases hload : loadComponentMetadata repo key.1 key.2 with
        | none =>
            rw [hload] at h
            cases h
            rcases List.mem_cons.mp hBr with rfl | hBv'
            · rw [hB] at hload
              cases hload
            · exact absurd hBv' hBv
        | some md =>
            rw [hload] at h
            dsimp only at h
            by_cases hkB : key = B
            · have hmd : md = mdB := by
                rw [hkB] at hload
                rw [hB] at hload
                exact (Option.some.injEq _ _).mp hload.symm
              exact resolveDepsLoop_pending_sub (resolveOneF repo fuel) _ _ _ h (hmd ▸ hC)
            · have hBkv : B ∉ key :: visited := by
                intro hmem
                rcases List.mem_cons.mp hmem with rfl | h'
                · exact hkB rfl
                · exact hBv h'
              exact resolveDepsLoop_expands B C (resolveOneF repo fuel) ih _ _ _ h hBkv hBr

theorem resolve_contains_dep_and_transitive (repo : Repo) (A B C : Key)
    (mdA mdB : ComponentMetadata)
    (hA : loadComponentMetadata repo A.1 A.2 = some mdA) (hBdep : B ∈ metadataDeps mdA)
    (hB : loadComponentMetadata repo B.1 B.2 = some mdB) (hCdep : C ∈ metadataDeps mdB) :
    B ∈ resolveComponentDependencies repo A.1 A.2 ∧
      C ∈ resolveComponentDependencies repo A.1 A.2 := by
  have htot := resolveOneF_total repo A.1 A.2
  cases hr : resolveOneF repo (resolveFuel repo (A.1, A.2)) (A.1, A.2) [] with
  | none => rw [hr] at htot; cases htot
  | some r =>
      have hres : resolveComponentDependencies repo A.1 A.2 = r.1 := by
        rw [resolveComponentDependencies, hr]
      have hr0 := hr
      rw [resolveFuel, resolveOneF] at hr
      rw [if_neg (List.not_mem_nil _)] at hr
      dsimp only at hr
      rw [hA] at hr
      dsimp only at hr
      have hBr1 : B ∈ r.1 :=
        resolveDepsLoop_pending_sub _ _ _ _ hr hBdep
      have hBr2 : B ∈ r.2 :=
        resolveDepsLoop_pending_visited _
          (fun d v r' h' => resolveOneF_visited_sub repo _ d v r' h')
          (fun d v r' h' => resolveOneF_key_mem repo _ d v r' h') _ _ _ B hr hBdep
      have hCr1 : C ∈ r.1 :=
        resolveOneF_expands repo B mdB C hB hCdep _ _ _ _ hr0 (List.not_mem_nil B) hBr2
      rw [hres]
      exact ⟨hBr1, hCr1⟩
/-- A dependency set declaring names only under one kind (test fixture). -/
def singleKindDeps (k : ComponentType) (ns : List String) : Dependencies :=
  Dependencies.set emptyDependencies k ns

/-- Fixture: shared components A → B → C (A depends on B, B on C, all of
kind `k`), the exact scenario of the spec's transitive-closure property. -/
def chainRepo (k : ComponentType) : Repo :=
  ⟨[((k, "A"), some ⟨"A", singleKindDeps k ["B"]⟩),
    ((k, "B"), some ⟨"B", singleKindDeps k ["C"]⟩),
    ((k, "C"), some ⟨"C", emptyDependencies⟩)]⟩

/-- Fixture: the two-cycle A → B → A of the spec's cycle-tolerance property. -/
def cycleRepo (k : ComponentType) : Repo :=
  ⟨[((k, "A"), some ⟨"A", singleKindDeps k ["B"]⟩),
    ((k, "B"), some ⟨"B", singleKindDeps k ["A"]⟩)]⟩

/-- Fixture: A → [X, B], X → [C, B], B → [C].  A declares a dependency on B
and B declares one on C, yet the traversal reaches C through X first. -/
def orderRepo (k : ComponentType) : Repo :=
  ⟨[((k, "A"), some ⟨"A", singleKindDeps k ["X", "B"]⟩),
    ((k, "X"), some ⟨"X", singleKindDeps k ["C", "B"]⟩),
    ((k, "B"), some ⟨"B", singleKindDeps k ["C"]⟩),
    ((k, "C"), some ⟨"C", emptyDependencies⟩)]⟩

/-- Claim C3 (counterexample): under the claim's premise alone — A's metadata
declares a dependency on B and B's metadata declares a dependency on C — "B
appears no later than C" is false: in `orderRepo` the resolved list is
`[X, C, B, C, B]`, whose first occurrence of C precedes the first occurrence
of B, even though both B and C do appear. -/
theorem claim_C3_order_counterexample :
    loadComponentMetadata (orderRepo ComponentType.skills) ComponentType.skills "A" =
        some ⟨"A", singleKindDeps ComponentType.skills ["X", "B"]⟩ ∧
      (ComponentType.skills, "B") ∈
          metadataDeps ⟨"A", singleKindDeps ComponentType.skills ["X", "B"]⟩ ∧
      loadComponentMetadata (orderRepo ComponentType.skills) ComponentType.skills "B" =
        some ⟨"B", singleKindDeps ComponentType.skills ["C"]⟩ ∧
      (ComponentType.skills, "C") ∈
          metadataDeps ⟨"B", singleKindDeps ComponentType.skills ["C"]⟩ ∧
      ¬((resolveComponentDependencies (orderRepo ComponentType.skills)
            ComponentType.skills "A").indexOf (ComponentType.skills, "B") ≤
          (resolveComponentDependencies (orderRepo ComponentType.skills)
            ComponentType.skills "A").indexOf (ComponentType.skills, "C")) := by
  decide

/-- Claim C3 (amended): for any repository in which component A's metadata
declares a dependency on B and B's metadata declares a dependency on C,
`ResolveComponentDependencies(A)` contains both B and C; and in the pure
chain scenario A → B → C named by the spec the result is exactly `[B, C]`,
so there B does precede C.  The claim's universal ordering clause is dropped,
as forced by the counterexample. -/
theorem claim_C3_amended_membership_and_chain :
    (∀ (repo : Repo) (A B C : Key) (mdA mdB : ComponentMetadata),
        loadComponentMetadata repo A.1 A.2 = some mdA → B ∈ metadataDeps mdA →
        loadComponentMetadata repo B.1 B.2 = some mdB → C ∈ metadataDeps mdB →
        B ∈ resolveComponentDependencies repo A.1 A.2 ∧
          C ∈ resolveComponentDependencies repo A.1 A.2) ∧
      ∀ k : ComponentType,
        resolveComponentDependencies (chainRepo k) k "A" = [(k, "B"), (k, "C")] := by
  constructor
  · intro repo A B C mdA mdB hA hBdep hB hCdep
    exact resolve_contains_dep_and_transitive repo A B C mdA mdB hA hBdep hB hCdep
  · intro k
    cases k <;> decide

/-- Witness for `claim_C3_amended_membership_and_chain`: the chain fixture
instantiates every hypothesis of its first part. -/
theorem claim_C3_amended_witness :
    (ComponentType.skills, "B") ∈
        resolveComponentDependencies (chainRepo ComponentType.skills) ComponentType.skills "A" ∧
      (ComponentType.skills, "C") ∈
        resolveComponentDependencies (chainRepo ComponentType.skills) ComponentType.skills "A" :=
  claim_C3_amended_membership_and_chain.1 (chainRepo ComponentType.skills)
    (ComponentType.skills, "A") (ComponentType.skills, "B") (ComponentType.skills, "C")
    ⟨"A", singleKindDeps ComponentType.skills ["B"]⟩
    ⟨"B", singleKindDeps ComponentType.skills ["C"]⟩
    (by decide) (by decide) (by decide) (by decide)

/-- Claim C4: the resolver terminates on every input — the fuelled recursion
never exhausts the fuel `resolveFuel` actually supplies (first conjunct, for
every repository and root, cycles included) — and on the two-cycle A → B → A
the result is the finite list `[B, A]`, in which B occurs exactly once
(second conjunct). -/
theorem claim_C4_cycle_terminates :
    (∀ (repo : Repo) (t : ComponentType) (n : String),
        (resolveOneF repo (resolveFuel repo (t, n)) (t, n) []).isSome = true) ∧
      ∀ k : ComponentType,
        resolveComponentDependencies (cycleRepo k) k "A" = [(k, "B"), (k, "A")] ∧
          (resolveComponentDependencies (cycleRepo k) k "A").count (k, "B") = 1 := by
  constructor
  · exact resolveOneF_total
  · intro k
    cases k <;> exact ⟨by decide, by decide⟩

/-- The names of one kind inside a raw resolved key list, in order. -/
def keysOfKind (t : ComponentType) (l : List Key) : List String :=
  l.filterMap (fun k => if k.1 = t then some k.2 else none)

/-- Follows the spec's words ("deduplicates into one list per kind,
preserving first-seen order"): keep each name's first occurrence, delete the
later duplicates. -/
def specFirstSeen : List String → List String
  | [] => []
  | a :: l => a :: specFirstSeen (l.filter (fun x => !(decide (x = a))))
termination_by l => l.length
decreasing_by
  simp_wf
  exact Nat.lt_succ_of_le (List.length_filter_le _ _)

/-- The accumulation step of `getAllDependenciesForComponent` seen through one
kind's bucket. -/
theorem Dependencies.get_set (d : Dependencies) (u t : ComponentType) (v : List String) :
    (d.set u v).get t = if u = t then v else d.get t := by
  cases d
  cases u <;> cases t <;> simp [Dependencies.get, Dependencies.set]

theorem depsAccAdd_get (acc : Dependencies) (k : Key) (t : ComponentType) :
    (depsAccAdd acc k).get t =
      if k.1 = t then
        (if k.2 ∈ acc.get t then acc.get t else acc.get t ++ [k.2])
      else acc.get t := by
  unfold depsAccAdd
  by_cases hk : k.2 ∈ acc.get k.1
  · rw [if_pos hk]
    by_cases ht : k.1 = t
    · rw [if_pos ht, if_pos (ht ▸ hk)]
    · rw [if_neg ht]
  · rw [if_neg hk, Dependencies.get_set]
    by_cases ht : k.1 = t
    · rw [if_pos ht, if_pos ht, if_neg (ht ▸ hk), ht]
    · rw [if_neg ht, if_neg ht]

/-- The dedup loop of the source, accumulator first. -/
def addNames : List String → List String → List String
  | acc, [] => acc
  | acc, n :: l => addNames (if n ∈ acc then acc else acc ++ [n]) l

theorem foldl_depsAccAdd_get :
    ∀ (l : List Key) (acc : Dependencies) (t : ComponentType),
      (l.foldl depsAccAdd acc).get t = addNames (acc.get t) (keysOfKind t l) := by
  intro l
  induction l with
  | nil => intro acc t; rfl
  | cons k l ih =>
      intro acc t
      rw [List.foldl_cons, ih]
      by_cases ht : k.1 = t
      · have hk : keysOfKind t (k :: l) = k.2 :: keysOfKind t l := by
          simp [keysOfKind, List.filterMap_cons, ht]
        rw [hk, addNames, depsAccAdd_get, if_pos ht]
      · have hk : keysOfKind t (k :: l) = keysOfKind t l := by
          simp [keysOfKind, List.filterMap_cons, ht]
        rw [hk, depsAccAdd_get, if_neg ht]

theorem filter_not_mem_append_singleton (acc : List String) (n : String) :
    ∀ l : List String,
      l.filter (fun x => !(decide (x ∈ acc ++ [n]))) =
        (l.filter (fun x => !(decide (x ∈ acc)))).filter (fun x => !(decide (x = n))) := by
  intro l
  rw [List.filter_filter]
  apply List.filter_congr
  intro x _
  by_cases h1 : x ∈ acc <;> by_cases h2 : x = n <;> simp [List.mem_append, h1, h2]

theorem addNames_eq_specFirstSeen :
    ∀ (l acc : List String),
      addNames acc l = acc ++ specFirstSeen (l.filter (fun x => !(decide (x ∈ acc)))) := by
  intro l
  induction l with
  | nil => intro acc; simp [addNames, specFirstSeen]
  | cons a l ih =>
      intro acc
      by_cases h1 : a ∈ acc
      · rw [addNames, if_pos h1, ih]
        simp [List.filter_cons, h1]
      · rw [addNames, if_neg h1, ih]
        have hfc : (a :: l).filter (fun x => !(decide (x ∈ acc))) =
            a :: l.filter (fun x => !(decide (x ∈ acc))) := by
          simp [List.filter_cons, h1]
        rw [hfc, specFirstSeen, filter_not_mem_append_singleton acc a l,
          List.append_assoc, List.singleton_append]

theorem specFirstSeen_sub :
    ∀ (bound : Nat) (l : List String), l.length ≤ bound → specFirstSeen l ⊆ l := by
  intro bound
  induction bound with
  | zero =>
      intro l hl
      cases l with
      | nil => simp [specFirstSeen]
      | cons a l => simp at hl
  | succ bound ih =>
      intro l hl
      cases l with
      | nil => simp [specFirstSeen]
      | cons a l =>
          rw [specFirstSeen]
          intro x hx
          rcases List.mem_cons.mp hx with rfl | hx'
          · exact List.mem_cons_self _ _
          · have hlen : (l.filter (fun x => !(decide (x = a)))).length ≤ bound :=
              le_trans (List.length_filter_le _ _) (Nat.le_of_succ_le_succ hl)
            exact List.mem_cons_of_mem _ (List.mem_of_mem_filter (ih _ hlen hx'))

theorem specFirstSeen_nodup :
    ∀ (bound : Nat) (l : List String), l.length ≤ bound → (specFirstSeen l).Nodup := by
  intro bound
  induction bound with
  | zero =>
      intro l hl
      cases l with
      | nil => simp [specFirstSeen]
      | cons a l => simp at hl
  | succ bound ih =>
      intro l hl
      cases l with
      | nil => simp [specFirstSeen]
      | cons a l =>
          rw [specFirstSeen]
          have hlen : (l.filter (fun x => !(decide (x = a)))).length ≤ bound :=
            le_trans (List.length_filter_le _ _) (Nat.le_of_succ_le_succ hl)
          refine List.nodup_cons.mpr ⟨?_, ih _ hlen⟩
          intro hmem
          have := List.of_mem_filter (specFirstSeen_sub bound _ hlen hmem)
          simp at this

/-- Claim C9: for every component, `GetAllDependenciesForComponent` buckets
the raw resolved list by kind and, within each kind, keeps exactly the first
occurrence of each name: the bucket equals the spec-side first-seen
deduplication of the kind's raw name sequence, and is duplicate-free. -/
theorem claim_C9_dedup_first_seen :
    ∀ (repo : Repo) (t : ComponentType) (n : String) (kt : ComponentType),
      (getAllDependenciesForComponent repo t n).get kt =
          specFirstSeen (keysOfKind kt (resolveComponentDependencies repo t n)) ∧
        ((getAllDependenciesForComponent repo t n).get kt).Nodup := by
  intro repo t n kt
  have hget : (getAllDependenciesForComponent repo t n).get kt =
      specFirstSeen (keysOfKind kt (resolveComponentDependencies repo t n)) := by
    rw [getAllDependenciesForComponent, foldl_depsAccAdd_get]
    have hempty : emptyDependencies.get kt = [] := by
      cases kt <;> rfl
    rw [hempty, addNames_eq_specFirstSeen]
    simp
  refine ⟨hget, ?_⟩
  rw [hget]
  exact specFirstSeen_nodup _ _ (Nat.le_refl _)

/-- Claim C10: `loadComponentMetadata` returns `null` exactly when the
shared-component directory is absent; when the directory exists but the
per-kind metadata file is missing, unreadable or fails parsing (the
`lookupComp … = some none` case), it returns the minimal metadata — the
component's name with empty dependency lists — instead of raising. -/
theorem claim_C10_metadata_fallback :
    ∀ (repo : Repo) (t : ComponentType) (n : String),
      (loadComponentMetadata repo t n = none ↔ lookupComp repo.comps (t, n) = none) ∧
        (lookupComp repo.comps (t, n) = some none →
          loadComponentMetadata repo t n = some ⟨n, emptyDependencies⟩) := by
  intro repo t n
  constructor
  · unfold loadComponentMetadata
    cases h : lookupComp repo.comps (t, n) with
    | none => simp
    | some parsed => simp
  · intro h
    unfold loadComponentMetadata
    rw [h]
    rfl

/-- Fixture: one shared-component directory whose metadata file is missing or
unparsable. -/
def badMetadataRepo : Repo := ⟨[((ComponentType.skills, "x"), none)]⟩

/-- Witness for `claim_C10_metadata_fallback` at `badMetadataRepo`. -/
theorem claim_C10_metadata_fallback_witness :
    lookupComp badMetadataRepo.comps (ComponentType.skills, "x") = some none ∧
      loadComponentMetadata badMetadataRepo ComponentType.skills "x" =
        some ⟨"x", emptyDependencies⟩ :=
  ⟨by decide,
    (claim_C10_metadata_fallback badMetadataRepo ComponentType.skills "x").2 (by decide)⟩

theorem setEntry_of_findEntry_none (es : Entries) (n : String) (e : FsEntry)
    (h : findEntry es n = none) : setEntry es n e = es ++ [(n, e)] := by
  induction es with
  | nil => rfl
  | cons c rest ih =>
      obtain ⟨m, x⟩ := c
      rw [findEntry] at h
      by_cases hm : m = n
      · rw [if_pos hm] at h
        cases h
      · rw [if_neg hm] at h
        rw [setEntry, if_neg hm, ih h, List.cons_append]

theorem removeSym_setEntry_of_symlink (n : String) (t : FsPath) (r : Bool)
    (e' : FsEntry) (he' : e'.isSymlink = true) :
    ∀ es : Entries, findEntry es n = some (FsEntry.symlink t r) →
      removeSymlinkEntries (setEntry es n e') = removeSymlinkEntries es := by
  intro es
  induction es with
  | nil => intro h; cases h
  | cons c rest ih =>
      intro h
      obtain ⟨m, x⟩ := c
      rw [findEntry] at h
      by_cases hm : m = n
      · subst hm
        rw [if_pos rfl] at h
        have hx : x = FsEntry.symlink t r := by
          cases h
          rfl
        subst hx
        rw [setEntry, if_pos rfl]
        simp only [removeSymlinkEntries, List.filter_cons]
        rw [show (m, e').2.isSymlink = true from he',
          show (m, FsEntry.symlink t r).2.isSymlink = true from rfl]
        simp
      · rw [if_neg hm] at h
        rw [setEntry, if_neg hm]
        have hr := ih h
        simp only [removeSymlinkEntries] at hr ⊢
        rw [List.filter_cons, List.filter_cons, hr]

theorem removeSym_createSymlink (es : Entries) (n : String) (p s : FsPath) (sx : Bool) :
    removeSymlinkEntries (createSymlink es n p s sx).1 = removeSymlinkEntries es := by
  unfold createSymlink
  cases hf : findEntry es n with
  | none =>
      dsimp only
      rw [setEntry_of_findEntry_none es n _ hf]
      simp [removeSymlinkEntries, List.filter_append, FsEntry.isSymlink]
  | some e =>
      dsimp only
      cases e with
      | symlink t r =>
          by_cases hacc : (FsEntry.symlink t r).accessOk = true
          · rw [if_pos hacc]
            rw [if_pos (show (FsEntry.symlink t r).isSymlink = true from rfl)]
            exact removeSym_setEntry_of_symlink n t r
              (FsEntry.symlink (FsPath.relative p s) sx) rfl es hf
          · rw [if_neg hacc]
      | dir =>
          rw [if_pos (show FsEntry.dir.accessOk = true from rfl)]
          rw [if_neg (show ¬FsEntry.dir.isSymlink = true from by simp [FsEntry.isSymlink])]
      | file =>
          rw [if_pos (show FsEntry.file.accessOk = true from rfl)]
          rw [if_neg (show ¬FsEntry.file.isSymlink = true from by simp [FsEntry.isSymlink])]

theorem removeSym_idem (es : Entries) :
    removeSymlinkEntries (removeSymlinkEntries es) = removeSymlinkEntries es := by
  simp only [removeSymlinkEntries, List.filter_filter]
  apply List.filter_congr
  intro x _
  cases h : x.2.isSymlink <;> simp [h]

theorem syncDeps_removeSym (shex : String → Bool) (k : ComponentType)
    (tp spk : FsPath) :
    ∀ (ns : List String) (es : Entries),
      removeSymlinkEntries (syncDeps shex k tp spk ns es).entries =
        removeSymlinkEntries es := by
  intro ns
  induction ns with
  | nil => intro es; rfl
  | cons n rest ih =>
      intro es
      rw [syncDeps]
      by_cases hx : shex n
      · rw [if_pos hx]
        cases hcs : createSymlink es n tp (spk.join n) true with
        | mk es' ok =>
            have hes' : removeSymlinkEntries es' = removeSymlinkEntries es := by
              have := removeSym_createSymlink es n tp (spk.join n) true
              rw [hcs] at this
              exact this
            cases ok with
            | true => dsimp only; rw [ih es', hes']
            | false => dsimp only; rw [ih es', hes']
      · rw [if_neg hx]
        dsimp only
        rw [ih es]

theorem updateGI_idem (g : Option String) (ss : List String) :
    updateComponentGitignore (updateComponentGitignore g ss) ss =
      updateComponentGitignore g ss := by
  by_cases hss : ss = []
  · subst hss
    cases g with
    | none => rfl
    | some c =>
        by_cases hc : c.startsWith gitignoreHeader
        · simp [updateComponentGitignore, hc]
        · simp [updateComponentGitignore, hc]
  · simp [updateComponentGitignore, hss]

theorem syncOneKind_eq (shex : String → Bool) (k : ComponentType)
    (cp sp : FsPath) (ns : List String) (d : KindDir) :
    syncOneKind shex k cp sp ns d =
      (⟨(syncDeps shex k (cp.join (componentTypeStr k))
            (sp.join (componentTypeStr k)) ns d.entries).entries,
          updateComponentGitignore d.gitignore
            (syncDeps shex k (cp.join (componentTypeStr k))
              (sp.join (componentTypeStr k)) ns d.entries).symlinks⟩,
        (syncDeps shex k (cp.join (componentTypeStr k))
          (sp.join (componentTypeStr k)) ns d.entries).created,
        (syncDeps shex k (cp.join (componentTypeStr k))
          (sp.join (componentTypeStr k)) ns d.entries).missing) := rfl

theorem syncOneKind_idem (shex : String → Bool) (k : ComponentType)
    (cp sp : FsPath) (ns : List String) (es₀ : Entries) (g₀ : Option String) :
    syncOneKind shex k cp sp ns
        ⟨removeSymlinkEntries
            (syncOneKind shex k cp sp ns ⟨removeSymlinkEntries es₀, g₀⟩).1.entries,
          (syncOneKind shex k cp sp ns ⟨removeSymlinkEntries es₀, g₀⟩).1.gitignore⟩ =
      syncOneKind shex k cp sp ns ⟨removeSymlinkEntries es₀, g₀⟩ := by
  have hent : removeSymlinkEntries
      (syncDeps shex k (cp.join (componentTypeStr k))
        (sp.join (componentTypeStr k)) ns (removeSymlinkEntries es₀)).entries =
      removeSymlinkEntries es₀ := by
    rw [syncDeps_removeSym, removeSym_idem]
  rw [syncOneKind_eq shex k cp sp ns ⟨removeSymlinkEntries es₀, g₀⟩, syncOneKind_eq]
  dsimp only
  rw [hent, updateGI_idem]

theorem ClaudeDir.get_ext (a b : ClaudeDir) (h : ∀ k, a.get k = b.get k) : a = b := by
  cases a
  cases b
  have h1 := h ComponentType.skills
  have h2 := h ComponentType.agents
  have h3 := h ComponentType.hooks
  have h4 := h ComponentType.rules
  simp only [ClaudeDir.get] at h1 h2 h3 h4
  rw [h1, h2, h3, h4]

theorem syncProjectLinks_dirs_get (shex : ComponentType → String → Bool)
    (cp sp : FsPath) (deps : Dependencies) (st : ClaudeDir) (k : ComponentType) :
    (syncProjectLinks shex cp sp deps st).dirs.get k =
      (syncOneKind (shex k) k cp sp (deps.get k)
        ⟨removeSymlinkEntries (st.get k).entries, (st.get k).gitignore⟩).1 := by
  cases k <;> rfl

/-- Claim C1: running `syncProjectLinks` twice with the same declared
dependencies and the same shared-component universe leaves the filesystem
state of the project's link directories — entries with their raw symlink
targets, and the ignore-manifest contents of every kind directory — identical
to the state after the first run. -/
theorem claim_C1_sync_idempotent :
    ∀ (shex : ComponentType → String → Bool) (claudePath sharedPath : FsPath)
      (deps : Dependencies) (st : ClaudeDir),
      (syncProjectLinks shex claudePath sharedPath deps
          (syncProjectLinks shex claudePath sharedPath deps st).dirs).dirs =
        (syncProjectLinks shex claudePath sharedPath deps st).dirs := by
  intro shex cp sp deps st
  apply ClaudeDir.get_ext
  intro k
  rw [syncProjectLinks_dirs_get, syncProjectLinks_dirs_get]
  exact congrArg Prod.fst
    (syncOneKind_idem (shex k) k cp sp (deps.get k) (st.get k).entries (st.get k).gitignore)

theorem findEntry_setEntry (n' : String) (e' : FsEntry) :
    ∀ (es : Entries) (n : String),
      findEntry (setEntry es n' e') n = if n' = n then some e' else findEntry es n := by
  intro es
  induction es with
  | nil =>
      intro n
      by_cases h : n' = n <;> simp [setEntry, findEntry, h]
  | cons c rest ih =>
      intro n
      obtain ⟨m, x⟩ := c
      by_cases hm : m = n'
      · rw [setEntry, if_pos hm]
        by_cases hn : n' = n
        · rw [findEntry, if_pos hn, if_pos hn]
        · have hmn : ¬m = n := fun h => hn (hm ▸ h)
          rw [findEntry, if_neg hn, if_neg hn, findEntry, if_neg hmn]
      · rw [setEntry, if_neg hm]
        by_cases hmn : m = n
        · have hn : ¬n' = n := fun h => hm (hmn.trans h.symm)
          rw [findEntry, if_pos hmn, if_neg hn, findEntry, if_pos hmn]
        · rw [findEntry, if_neg hmn, ih n, findEntry, if_neg hmn]

theorem findEntry_removeSym (n : String) (e : FsEntry) (hns : e.isSymlink = false) :
    ∀ es : Entries, findEntry es n = some e →
      findEntry (removeSymlinkEntries es) n = some e := by
  intro es
  induction es with
  | nil => intro h; cases h
  | cons c rest ih =>
      intro h
      obtain ⟨m, x⟩ := c
      rw [findEntry] at h
      by_cases hm : m = n
      · rw [if_pos hm] at h
        have hx : x = e := by cases h; rfl
        subst hx
        simp [removeSymlinkEntries, List.filter_cons, hns, findEntry, hm]
      · rw [if_neg hm] at h
        rw [removeSymlinkEntries, List.filter_cons]
        by_cases hsym : (!(m, x).2.isSymlink) = true
        · rw [if_pos hsym, findEntry, if_neg hm]
          exact ih h
        · rw [if_neg hsym]
          exact ih h

theorem createSymlink_fail_of_nonsymlink (es : Entries) (n : String)
    (parent source : FsPath) (sourceOk : Bool) (e : FsEntry)
    (h : findEntry es n = some e) (hns : e.isSymlink = false) :
    createSymlink es n parent source sourceOk = (es, false) := by
  unfold createSymlink
  rw [h]
  dsimp only
  cases e with
  | symlink t r => simp [FsEntry.isSymlink] at hns
  | dir => simp [FsEntry.accessOk, FsEntry.isSymlink]
  | file => simp [FsEntry.accessOk, FsEntry.isSymlink]

theorem createSymlink_preserves (es : Entries) (n' : String)
    (parent source : FsPath) (sourceOk : Bool) (n : String) (e : FsEntry)
    (h : findEntry es n = some e) (hns : e.isSymlink = false) :
    findEntry (createSymlink es n' parent source sourceOk).1 n = some e := by
  by_cases hnn : n' = n
  · subst hnn
    rw [createSymlink_fail_of_nonsymlink es n' parent source sourceOk e h hns]
    exact h
  · unfold createSymlink
    cases hf : findEntry es n' with
    | none =>
        dsimp only
        rw [findEntry_setEntry, if_neg hnn]
        exact h
    | some e₂ =>
        dsimp only
        by_cases hacc : e₂.accessOk = true
        · rw [if_pos hacc]
          by_cases hsym : e₂.isSymlink = true
          · rw [if_pos hsym]
            dsimp only
            rw [findEntry_setEntry, if_neg hnn]
            exact h
          · rw [if_neg hsym]
            exact h
        · rw [if_neg hacc]
          exact h

theorem syncDeps_preserves (shex : String → Bool) (k : ComponentType)
    (tp spk : FsPath) (n : String) (e : FsEntry) (hns : e.isSymlink = false) :
    ∀ (ns : List String) (es : Entries), findEntry es n = some e →
      findEntry (syncDeps shex k tp spk ns es).entries n = some e := by
  intro ns
  induction ns with
  | nil => intro es h; exact h
  | cons n₀ rest ih =>
      intro es h
      rw [syncDeps]
      by_cases hx : shex n₀
      · rw [if_pos hx]
        cases hcs : createSymlink es n₀ tp (spk.join n₀) true with
        | mk es' ok =>
            have hes' : findEntry es' n = some e := by
              have := createSymlink_preserves es n₀ tp (spk.join n₀) true n e h hns
              rw [hcs] at this
              exact this
            cases ok with
            | true => dsimp only; exact ih es' hes'
            | false => dsimp only; exact ih es' hes'
      · rw [if_neg hx]
        dsimp only
        exact ih es h

/-- Claim C2: the Linker never deletes and never overwrites a local
(non-symlink) entry.  First part: `createSymlink` at a slot occupied by a
pre-existing non-symlink entry returns `false` without modifying the listing.
Second part: after `syncProjectLinks`, every non-symlink entry of every kind
directory is still present, unchanged (the removal step unlinks only entries
whose `lstat` reports a symlink). -/
theorem claim_C2_local_preserved :
    (∀ (es : Entries) (n : String) (parent source : FsPath) (sourceOk : Bool) (e : FsEntry),
        findEntry es n = some e → e.isSymlink = false →
        createSymlink es n parent source sourceOk = (es, false)) ∧
      ∀ (shex : ComponentType → String → Bool) (claudePath sharedPath : FsPath)
        (deps : Dependencies) (st : ClaudeDir) (k : ComponentType) (n : String) (e : FsEntry),
        findEntry (st.get k).entries n = some e → e.isSymlink = false →
        findEntry ((syncProjectLinks shex claudePath sharedPath deps st).dirs.get k).entries n =
          some e := by
  constructor
  · intro es n parent source sourceOk e h hns
    exact createSymlink_fail_of_nonsymlink es n parent source sourceOk e h hns
  · intro shex cp sp deps st k n e h hns
    rw [syncProjectLinks_dirs_get, syncOneKind_eq]
    dsimp only
    exact syncDeps_preserves (shex k) k _ _ n e hns (deps.get k) _
      (findEntry_removeSym n e hns (st.get k).entries h)

/-- Fixture: a project state whose skills directory holds one local
(non-symlink) component plus a stale symlink. -/
def localFixture : ClaudeDir :=
  ⟨⟨[("local-utils", FsEntry.dir), ("old", FsEntry.symlink ⟨true, ["x"]⟩ true)],
      some "hand-written"⟩,
    ⟨[], none⟩, ⟨[], none⟩, ⟨[], none⟩⟩

/-- Witness for `claim_C2_local_preserved`: a concrete occupied slot makes
`createSymlink` fail without modification, and a concrete sync preserves the
local directory entry. -/
theorem claim_C2_local_preserved_witness :
    (findEntry [("local-utils", FsEntry.dir)] "local-utils" = some FsEntry.dir ∧
        FsEntry.dir.isSymlink = false ∧
        createSymlink [("local-utils", FsEntry.dir)] "local-utils" ⟨true, ["p"]⟩
            ⟨true, ["s"]⟩ true =
          ([("local-utils", FsEntry.dir)], false)) ∧
      findEntry ((syncProjectLinks (fun _ _ => true) ⟨true, ["p", ".claude"]⟩
            ⟨true, ["shared"]⟩ ⟨["log"], [], [], []⟩ localFixture).dirs.get
              ComponentType.skills).entries "local-utils" = some FsEntry.dir :=
  ⟨⟨by decide, by decide,
      claim_C2_local_preserved.1 [("local-utils", FsEntry.dir)] "local-utils"
        ⟨true, ["p"]⟩ ⟨true, ["s"]⟩ true FsEntry.dir (by decide) (by decide)⟩,
    claim_C2_local_preserved.2 (fun _ _ => true) ⟨true, ["p", ".claude"]⟩
      ⟨true, ["shared"]⟩ ⟨["log"], [], [], []⟩ localFixture ComponentType.skills
      "local-utils" FsEntry.dir (by decide) (by decide)⟩

/-- Follows the spec's words for missing-dependency reporting: the declared
dependencies, kind by kind in `ComponentTypes` order, whose shared-component
directory does not exist, each rendered as `"<kind>/<name>"`. -/
def specMissingList (shex : ComponentType → String → Bool) (deps : Dependencies) :
    List String :=
  ((deps.skills.filter (fun n => !(shex ComponentType.skills n))).map
      (fun n => componentTypeStr ComponentType.skills ++ "/" ++ n)) ++
    (((deps.agents.filter (fun n => !(shex ComponentType.agents n))).map
        (fun n => componentTypeStr ComponentType.agents ++ "/" ++ n)) ++
      (((deps.hooks.filter (fun n => !(shex ComponentType.hooks n))).map
          (fun n => componentTypeStr ComponentType.hooks ++ "/" ++ n)) ++
        ((deps.rules.filter (fun n => !(shex ComponentType.rules n))).map
          (fun n => componentTypeStr ComponentType.rules ++ "/" ++ n))))

theorem syncDeps_missing (shex : String → Bool) (k : ComponentType)
    (tp spk : FsPath) :
    ∀ (ns : List String) (es : Entries),
      (syncDeps shex k tp spk ns es).missing =
        (ns.filter (fun n => !(shex n))).map (fun n => componentTypeStr k ++ "/" ++ n) := by
  intro ns
  induction ns with
  | nil => intro es; rfl
  | cons n rest ih =>
      intro es
      rw [syncDeps]
      by_cases hx : shex n
      · rw [if_pos hx]
        cases hcs : createSymlink es n tp (spk.join n) true with
        | mk es' ok =>
            cases ok with
            | true =>
                dsimp only
                rw [ih es']
                simp [List.filter_cons, hx]
            | false =>
                dsimp only
                rw [ih es']
                simp [List.filter_cons, hx]
      · rw [if_neg hx]
        dsimp only
        rw [ih es]
        simp [List.filter_cons, hx]

theorem syncProjectLinks_missing (shex : ComponentType → String → Bool)
    (cp sp : FsPath) (deps : Dependencies) (st : ClaudeDir) :
    (syncProjectLinks shex cp sp deps st).missing = specMissingList shex deps := by
  show (syncOneKind (shex ComponentType.skills) ComponentType.skills cp sp deps.skills
        ((removeProjectLinks st).skills)).2.2 ++ _ = _
  rw [specMissingList]
  rw [show ∀ a b c d a' b' c' d', a = a' → b = b' → c = c' → d = d' →
      a ++ (b ++ (c ++ d)) = a' ++ (b' ++ (c' ++ d')) from by
    intro a b c d a' b' c' d' h1 h2 h3 h4
    rw [h1, h2, h3, h4]]
  · exact syncDeps_missing _ _ _ _ _ _
  · exact syncDeps_missing _ _ _ _ _ _
  · exact syncDeps_missing _ _ _ _ _ _
  · exact syncDeps_missing _ _ _ _ _ _

/-- Claim C5: a declared dependency whose shared-component directory does not
exist is reported as `"<kind>/<name>"` in `missing` — the `missing` report is
exactly the list of non-existent declared dependencies in declaration order
(so no error is raised and the remaining dependencies are still processed) —
and in particular every such dependency appears in `missing`. -/
theorem claim_C5_missing_reported :
    (∀ (shex : ComponentType → String → Bool) (claudePath sharedPath : FsPath)
        (deps : Dependencies) (st : ClaudeDir),
        (syncProjectLinks shex claudePath sharedPath deps st).missing =
          specMissingList shex deps) ∧
      ∀ (shex : ComponentType → String → Bool) (claudePath sharedPath : FsPath)
        (deps : Dependencies) (st : ClaudeDir) (k : ComponentType) (n : String),
        n ∈ deps.get k → shex k n = false →
        (componentTypeStr k ++ "/" ++ n) ∈
          (syncProjectLinks shex claudePath sharedPath deps st).missing := by
  constructor
  · intro shex cp sp deps st
    exact syncProjectLinks_missing shex cp sp deps st
  · intro shex cp sp deps st k n hmem hshex
    rw [syncProjectLinks_missing shex cp sp deps st]
    have hfil : n ∈ (deps.get k).filter (fun m => !(shex k m)) :=
      List.mem_filter.mpr ⟨hmem, by rw [hshex]; rfl⟩
    have hmap : (componentTypeStr k ++ "/" ++ n) ∈
        ((deps.get k).filter (fun m => !(shex k m))).map
          (fun m => componentTypeStr k ++ "/" ++ m) :=
      List.mem_map_of_mem _ hfil
    rw [specMissingList]
    cases k with
    | skills => exact List.mem_append_left _ hmap
    | agents => exact List.mem_append_right _ (List.mem_append_left _ hmap)
    | hooks =>
        exact List.mem_append_right _ (List.mem_append_right _ (List.mem_append_left _ hmap))
    | rules =>
        exact List.mem_append_right _ (List.mem_append_right _ (List.mem_append_right _ hmap))

/-- Witness for `claim_C5_missing_reported`: syncing a project declaring the
non-existent skill `ghost` reports `"skills/ghost"`. -/
theorem claim_C5_missing_reported_witness :
    "ghost" ∈ (Dependencies.mk ["log", "ghost"] [] [] []).get ComponentType.skills ∧
      (fun (t : ComponentType) (n : String) =>
          t = ComponentType.skills && n = "log") ComponentType.skills "ghost" = false ∧
      (componentTypeStr ComponentType.skills ++ "/" ++ "ghost") ∈
        (syncProjectLinks
            (fun t n => t = ComponentType.skills && n = "log")
            ⟨true, ["p", ".claude"]⟩ ⟨true, ["shared"]⟩
            ⟨["log", "ghost"], [], [], []⟩ localFixture).missing :=
  ⟨by decide, by decide,
    claim_C5_missing_reported.2
      (fun t n => t = ComponentType.skills && n = "log")
      ⟨true, ["p", ".claude"]⟩ ⟨true, ["shared"]⟩
      ⟨["log", "ghost"], [], [], []⟩ localFixture ComponentType.skills "ghost"
      (by decide) (by decide)⟩

theorem findEntry_mem : ∀ (es : Entries) (n : String) (e : FsEntry),
    findEntry es n = some e → (n, e) ∈ es := by
  intro es
  induction es with
  | nil => intro n e h; cases h
  | cons c rest ih =>
      intro n e h
      obtain ⟨m, x⟩ := c
      rw [findEntry] at h
      by_cases hm : m = n
      · rw [if_pos hm] at h
        have hx : x = e := by cases h; rfl
        subst hm
        subst hx
        exact List.mem_cons_self _ _
      · rw [if_neg hm] at h
        exact List.mem_cons_of_mem _ (ih n e h)

theorem removeSym_no_symlink (es : Entries) (n : String) (p : FsPath) (r : Bool)
    (h : findEntry (removeSymlinkEntries es) n = some (FsEntry.symlink p r)) : False := by
  have hmem := findEntry_mem _ _ _ h
  have hprop := List.of_mem_filter hmem
  simp [FsEntry.isSymlink] at hprop

theorem createSymlink_relative (es : Entries) (n' : String)
    (parent source : FsPath) (sourceOk : Bool)
    (hinv : ∀ n p r, findEntry es n = some (FsEntry.symlink p r) → p.isAbs = false) :
    ∀ n p r, findEntry (createSymlink es n' parent source sourceOk).1 n =
      some (FsEntry.symlink p r) → p.isAbs = false := by
  intro n p r h
  unfold createSymlink at h
  cases hf : findEntry es n' with
  | none =>
      rw [hf] at h
      dsimp only at h
      rw [findEntry_setEntry] at h
      by_cases hnn : n' = n
      · rw [if_pos hnn] at h
        cases h
        rfl
      · rw [if_neg hnn] at h
        exact hinv n p r h
  | some e₂ =>
      rw [hf] at h
      dsimp only at h
      by_cases hacc : e₂.accessOk = true
      · rw [if_pos hacc] at h
        by_cases hsym : e₂.isSymlink = true
        · rw [if_pos hsym] at h
          dsimp only at h
          rw [findEntry_setEntry] at h
          by_cases hnn : n' = n
          · rw [if_pos hnn] at h
            cases h
            rfl
          · rw [if_neg hnn] at h
            exact hinv n p r h
        · rw [if_neg hsym] at h
          exact hinv n p r h
      · rw [if_neg hacc] at h
        exact hinv n p r h

theorem syncDeps_relative (shex : String → Bool) (k : ComponentType)
    (tp spk : FsPath) :
    ∀ (ns : List String) (es : Entries),
      (∀ n p r, findEntry es n = some (FsEntry.symlink p r) → p.isAbs = false) →
      ∀ n p r, findEntry (syncDeps shex k tp spk ns es).entries n =
        some (FsEntry.symlink p r) → p.isAbs = false := by
  intro ns
  induction ns with
  | nil => intro es hinv; exact hinv
  | cons n₀ rest ih =>
      intro es hinv
      rw [syncDeps]
      by_cases hx : shex n₀
      · rw [if_pos hx]
        cases hcs : createSymlink es n₀ tp (spk.join n₀) true with
        | mk es' ok =>
            have hinv' : ∀ n p r, findEntry es' n = some (FsEntry.symlink p r) →
                p.isAbs = false := by
              intro n p r h
              apply createSymlink_relative es n₀ tp (spk.join n₀) true hinv n p r
              rw [hcs]
              exact h
            cases ok with
            | true => dsimp only; exact ih es' hinv'
            | false => dsimp only; exact ih es' hinv'
      · rw [if_neg hx]
        dsimp only
        exact ih es hinv

theorem createSymlink_entry_cases (es : Entries) (n' : String)
    (parent source : FsPath) (sourceOk : Bool) (n : String) (p : FsPath) (r : Bool)
    (h : findEntry (createSymlink es n' parent source sourceOk).1 n =
      some (FsEntry.symlink p r)) :
    findEntry es n = some (FsEntry.symlink p r) ∨ p.isAbs = false := by
  unfold createSymlink at h
  cases hf : findEntry es n' with
  | none =>
      rw [hf] at h
      dsimp only at h
      rw [findEntry_setEntry] at h
      by_cases hnn : n' = n
      · rw [if_pos hnn] at h
        cases h
        exact Or.inr rfl
      · rw [if_neg hnn] at h
        exact Or.inl h
  | some e₂ =>
      rw [hf] at h
      dsimp only at h
      by_cases hacc : e₂.accessOk = true
      · rw [if_pos hacc] at h
        by_cases hsym : e₂.isSymlink = true
        · rw [if_pos hsym] at h
          dsimp only at h
          rw [findEntry_setEntry] at h
          by_cases hnn : n' = n
          · rw [if_pos hnn] at h
            cases h
            exact Or.inr rfl
          · rw [if_neg hnn] at h
            exact Or.inl h
        · rw [if_neg hsym] at h
          exact Or.inl h
      · rw [if_neg hacc] at h
        exact Or.inl h

theorem claudeDirGetSet (st : ClaudeDir) (u k : ComponentType) (d : KindDir) :
    (st.set u d).get k = if u = k then d else st.get k := by
  cases st
  cases u <;> cases k <;> simp [ClaudeDir.get, ClaudeDir.set]

/-- Claim C6: every raw symlink target stored by the Linker is a relative
path.  After `syncProjectLinks` every symlink of every kind directory carries
a relative raw target (pre-existing symlinks were all removed first, and
`createSymlink` stores `relative(parent, source)`); and `addComponentLink`
only ever adds symlinks with relative raw targets (any absolute-target
symlink in its output was already present beforehand). -/
theorem claim_C6_links_relative :
    (∀ (shex : ComponentType → String → Bool) (claudePath sharedPath : FsPath)
        (deps : Dependencies) (st : ClaudeDir) (k : ComponentType) (n : String)
        (p : FsPath) (r : Bool),
        findEntry ((syncProjectLinks shex claudePath sharedPath deps st).dirs.get k).entries n =
          some (FsEntry.symlink p r) → p.isAbs = false) ∧
      ∀ (shex : ComponentType → String → Bool) (claudePath sharedPath : FsPath)
        (kc : ComponentType) (nc : String) (st : ClaudeDir) (k : ComponentType)
        (n : String) (p : FsPath) (r : Bool),
        findEntry (((addComponentLink shex claudePath sharedPath kc nc st).1.get k).entries) n =
          some (FsEntry.symlink p r) →
        findEntry ((st.get k).entries) n = some (FsEntry.symlink p r) ∨ p.isAbs = false := by
  constructor
  · intro shex cp sp deps st k n p r h
    rw [syncProjectLinks_dirs_get, syncOneKind_eq] at h
    dsimp only at h
    exact syncDeps_relative (shex k) k _ _ (deps.get k) _
      (fun n' p' r' h' => absurd h' (fun hh => removeSym_no_symlink _ n' p' r' hh)) n p r h
  · intro shex cp sp kc nc st k n p r h
    unfold addComponentLink at h
    by_cases hx : shex kc nc
    · rw [if_pos hx] at h
      cases hcs : createSymlink (st.get kc).entries nc
          (cp.join (componentTypeStr kc))
          ((sp.join (componentTypeStr kc)).join nc) true with
      | mk es' ok =>
          rw [hcs] at h
          have hcase : findEntry es' n = some (FsEntry.symlink p r) →
              findEntry ((st.get kc).entries) n = some (FsEntry.symlink p r) ∨
                p.isAbs = false := by
            intro h'
            apply createSymlink_entry_cases (st.get kc).entries nc
              (cp.join (componentTypeStr kc))
              ((sp.join (componentTypeStr kc)).join nc) true n p r
            rw [hcs]
            exact h'
          by_cases hkk : kc = k
          · subst hkk
            cases ok with
            | true =>
                dsimp only at h
                rw [claudeDirGetSet, if_pos rfl] at h
                exact hcase h
            | false =>
                dsimp only at h
                rw [claudeDirGetSet, if_pos rfl] at h
                exact hcase h
          · cases ok with
            | true =>
                dsimp only at h
                rw [claudeDirGetSet, if_neg hkk] at h
                exact Or.inl h
            | false =>
                dsimp only at h
                rw [claudeDirGetSet, if_neg hkk] at h
                exact Or.inl h
    · rw [if_neg hx] at h
      exact Or.inl h

/-- Witness for `claim_C6_links_relative`: the link created for skill `log`
in a concrete sync carries the raw relative target
`../../../../shared/skills/log`, and its `isAbs` flag is `false`. -/
theorem claim_C6_links_relative_witness :
    findEntry ((syncProjectLinks (fun _ _ => true)
          ⟨true, ["repo", "projects", "web", ".claude"]⟩ ⟨true, ["repo", "shared"]⟩
          ⟨["log"], [], [], []⟩ localFixture).dirs.get ComponentType.skills).entries "log" =
        some (FsEntry.symlink
          ⟨false, ["..", "..", "..", "..", "shared", "skills", "log"]⟩ true) ∧
      (FsPath.mk false ["..", "..", "..", "..", "shared", "skills", "log"]).isAbs = false :=
  ⟨by decide,
    claim_C6_links_relative.1 (fun _ _ => true)
      ⟨true, ["repo", "projects", "web", ".claude"]⟩ ⟨true, ["repo", "shared"]⟩
      ⟨["log"], [], [], []⟩ localFixture ComponentType.skills "log"
      ⟨false, ["..", "..", "..", "..", "shared", "skills", "log"]⟩ true (by decide)⟩

theorem createSymlink_false_entries (es : Entries) (n' : String)
    (parent source : FsPath) (sourceOk : Bool) (es' : Entries)
    (h : createSymlink es n' parent source sourceOk = (es', false)) : es' = es := by
  unfold createSymlink at h
  cases hf : findEntry es n' with
  | none =>
      rw [hf] at h
      cases h
  | some e₂ =>
      rw [hf] at h
      dsimp only at h
      by_cases hacc : e₂.accessOk = true
      · rw [if_pos hacc] at h
        by_cases hsym : e₂.isSymlink = true
        · rw [if_pos hsym] at h
          cases h
        · rw [if_neg hsym] at h
          cases h
          rfl
      · rw [if_neg hacc] at h
        cases h
        rfl

theorem createSymlink_true_entry (es : Entries) (n' : String)
    (parent source : FsPath) (sourceOk : Bool) (es' : Entries)
    (h : createSymlink es n' parent source sourceOk = (es', true)) :
    findEntry es' n' =
      some (FsEntry.symlink (FsPath.relative parent source) sourceOk) := by
  unfold createSymlink at h
  cases hf : findEntry es n' with
  | none =>
      rw [hf] at h
      dsimp only at h
      cases h
      rw [findEntry_setEntry, if_pos rfl]
  | some e₂ =>
      rw [hf] at h
      dsimp only at h
      by_cases hacc : e₂.accessOk = true
      · rw [if_pos hacc] at h
        by_cases hsym : e₂.isSymlink = true
        · rw [if_pos hsym] at h
          cases h
          rw [findEntry_setEntry, if_pos rfl]
        · rw [if_neg hsym] at h
          cases h
      · rw [if_neg hacc] at h
        cases h

theorem createSymlink_symlink_stays (es : Entries) (n' : String)
    (parent source : FsPath) (sourceOk : Bool) (n : String) (p : FsPath) (r : Bool)
    (h : findEntry es n = some (FsEntry.symlink p r)) :
    ∃ p' r', findEntry (createSymlink es n' parent source sourceOk).1 n =
      some (FsEntry.symlink p' r') := by
  cases hcs : createSymlink es n' parent source sourceOk with
  | mk es' ok =>
      cases ok with
      | false =>
          rw [createSymlink_false_entries es n' parent source sourceOk es' hcs]
          exact ⟨p, r, h⟩
      | true =>
          by_cases hnn : n' = n
          · subst hnn
            exact ⟨FsPath.relative parent source, sourceOk,
              createSymlink_true_entry es n' parent source sourceOk es' hcs⟩
          · refine ⟨p, r, ?_⟩
            dsimp only
            unfold createSymlink at hcs
            cases hf : findEntry es n' with
            | none =>
                rw [hf] at hcs
                dsimp only at hcs
                cases hcs
                rw [findEntry_setEntry, if_neg hnn]
                exact h
            | some e₂ =>
                rw [hf] at hcs
                dsimp only at hcs
                by_cases hacc : e₂.accessOk = true
                · rw [if_pos hacc] at hcs
                  by_cases hsym : e₂.isSymlink = true
                  · rw [if_pos hsym] at hcs
                    cases hcs
                    rw [findEntry_setEntry, if_neg hnn]
                    exact h
                  · rw [if_neg hsym] at hcs
                    cases hcs
                · rw [if_neg hacc] at hcs
                  cases hcs

theorem syncDeps_symlink_stays (shex : String → Bool) (k : ComponentType)
    (tp spk : FsPath) :
    ∀ (ns : List String) (es : Entries) (n : String) (p : FsPath) (r : Bool),
      findEntry es n = some (FsEntry.symlink p r) →
      ∃ p' r', findEntry (syncDeps shex k tp spk ns es).entries n =
        some (FsEntry.symlink p' r') := by
  intro ns
  induction ns with
  | nil => intro es n p r h; exact ⟨p, r, h⟩
  | cons n₀ rest ih =>
      intro es n p r h
      rw [syncDeps]
      by_cases hx : shex n₀
      · rw [if_pos hx]
        cases hcs : createSymlink es n₀ tp (spk.join n₀) true with
        | mk es' ok =>
            have hstay := createSymlink_symlink_stays es n₀ tp (spk.join n₀) true n p r h
            rw [hcs] at hstay
            obtain ⟨p', r', hstay⟩ := hstay
            cases ok with
            | true => dsimp only; exact ih es' n p' r' hstay
            | false => dsimp only; exact ih es' n p' r' hstay
      · rw [if_neg hx]
        dsimp only
        exact ih es n p r h

theorem syncDeps_symlinks_entry (shex : String → Bool) (k : ComponentType)
    (tp spk : FsPath) :
    ∀ (ns : List String) (es : Entries) (n : String),
      n ∈ (syncDeps shex k tp spk ns es).symlinks →
      ∃ p r, findEntry (syncDeps shex k tp spk ns es).entries n =
        some (FsEntry.symlink p r) := by
  intro ns
  induction ns with
  | nil => intro es n h; cases h
  | cons n₀ rest ih =>
      intro es n h
      rw [syncDeps] at h ⊢
      by_cases hx : shex n₀
      · rw [if_pos hx] at h ⊢
        cases hcs : createSymlink es n₀ tp (spk.join n₀) true with
        | mk es' ok =>
            rw [hcs] at h
            cases ok with
            | true =>
                dsimp only at h ⊢
                rcases List.mem_cons.mp h with rfl | h'
                · have hself := createSymlink_true_entry es n tp (spk.join n) true es' hcs
                  exact syncDeps_symlink_stays shex k tp spk rest es' n _ _ hself
                · exact ih es' n h'
            | false =>
                dsimp only at h ⊢
                exact ih es' n h
      · rw [if_neg hx] at h ⊢
        dsimp only at h ⊢
        exact ih es n h

theorem createSymlink_entry_origin (es : Entries) (n' : String)
    (parent source : FsPath) (sourceOk : Bool) (n : String) (p : FsPath) (r : Bool)
    (h : findEntry (createSymlink es n' parent source sourceOk).1 n =
      some (FsEntry.symlink p r)) :
    findEntry es n = some (FsEntry.symlink p r) ∨ n = n' := by
  unfold createSymlink at h
  cases hf : findEntry es n' with
  | none =>
      rw [hf] at h
      dsimp only at h
      rw [findEntry_setEntry] at h
      by_cases hnn : n' = n
      · exact Or.inr hnn.symm
      · rw [if_neg hnn] at h
        exact Or.inl h
  | some e₂ =>
      rw [hf] at h
      dsimp only at h
      by_cases hacc : e₂.accessOk = true
      · rw [if_pos hacc] at h
        by_cases hsym : e₂.isSymlink = true
        · rw [if_pos hsym] at h
          dsimp only at h
          rw [findEntry_setEntry] at h
          by_cases hnn : n' = n
          · exact Or.inr hnn.symm
          · rw [if_neg hnn] at h
            exact Or.inl h
        · rw [if_neg hsym] at h
          exact Or.inl h
      · rw [if_neg hacc] at h
        exact Or.inl h

theorem syncDeps_entry_symlinks (shex : String → Bool) (k : ComponentType)
    (tp spk : FsPath) :
    ∀ (ns : List String) (es : Entries) (n : String) (p : FsPath) (r : Bool),
      findEntry (syncDeps shex k tp spk ns es).entries n =
        some (FsEntry.symlink p r) →
      (∃ p' r', findEntry es n = some (FsEntry.symlink p' r')) ∨
        n ∈ (syncDeps shex k tp spk ns es).symlinks := by
  intro ns
  induction ns with
  | nil => intro es n p r h; exact Or.inl ⟨p, r, h⟩
  | cons n₀ rest ih =>
      intro es n p r h
      rw [syncDeps] at h ⊢
      by_cases hx : shex n₀
      · rw [if_pos hx] at h ⊢
        cases hcs : createSymlink es n₀ tp (spk.join n₀) true with
        | mk es' ok =>
            rw [hcs] at h
            cases ok with
            | true =>
                dsimp only at h ⊢
                rcases ih es' n p r h with ⟨p', r', h'⟩ | hmem
                · have horigin := createSymlink_entry_origin es n₀ tp (spk.join n₀) true n p' r'
                  rw [hcs] at horigin
                  rcases horigin h' with hold | rfl
                  · exact Or.inl ⟨p', r', hold⟩
                  · exact Or.inr (List.mem_cons_self _ _)
                · exact Or.inr (List.mem_cons_of_mem _ hmem)
            | false =>
                dsimp only at h ⊢
                have hes' : es' = es :=
                  createSymlink_false_entries es n₀ tp (spk.join n₀) true es' hcs
                rw [hes'] at h ⊢
                exact ih es n p r h
      · rw [if_neg hx] at h ⊢
        dsimp only at h ⊢
        exact ih es n p r h

/-- The `symlinks` accumulator of `syncProjectLinks` for one kind: the names
whose link creation succeeded during the sync, in order. -/
def syncKindSymlinks (shex : ComponentType → String → Bool)
    (claudePath sharedPath : FsPath) (deps : Dependencies) (st : ClaudeDir)
    (k : ComponentType) : List String :=
  (syncDeps (shex k) k (claudePath.join (componentTypeStr k))
    (sharedPath.join (componentTypeStr k)) (deps.get k)
    (removeSymlinkEntries (st.get k).entries)).symlinks

theorem syncProjectLinks_gitignore (shex : ComponentType → String → Bool)
    (cp sp : FsPath) (deps : Dependencies) (st : ClaudeDir) (k : ComponentType) :
    ((syncProjectLinks shex cp sp deps st).dirs.get k).gitignore =
      updateComponentGitignore (st.get k).gitignore
        (syncKindSymlinks shex cp sp deps st k) := by
  rw [syncProjectLinks_dirs_get, syncOneKind_eq]
  rfl

/-- Claim C8: after `syncProjectLinks` processes a kind, the kind's ignore
manifest is `updateComponentGitignore` of the previous content with exactly
the names symlinked during this run; those names coincide with the symlink
entries on disk; with at least one symlink the content is the sentinel header
followed by the names; with zero symlinks the file is deleted exactly when
its previous content begins with the sentinel header, and a hand-authored
ignore file is left untouched. -/
theorem claim_C8_gitignore_exact :
    ∀ (shex : ComponentType → String → Bool) (claudePath sharedPath : FsPath)
      (deps : Dependencies) (st : ClaudeDir) (k : ComponentType),
      ((syncProjectLinks shex claudePath sharedPath deps st).dirs.get k).gitignore =
          updateComponentGitignore (st.get k).gitignore
            (syncKindSymlinks shex claudePath sharedPath deps st k) ∧
        (∀ n, n ∈ syncKindSymlinks shex claudePath sharedPath deps st k ↔
          ∃ p r,
            findEntry
                ((syncProjectLinks shex claudePath sharedPath deps st).dirs.get k).entries n =
              some (FsEntry.symlink p r)) ∧
        (syncKindSymlinks shex claudePath sharedPath deps st k ≠ [] →
          ((syncProjectLinks shex claudePath sharedPath deps st).dirs.get k).gitignore =
            some (gitignoreHeader ++
              String.intercalate "\n"
                (syncKindSymlinks shex claudePath sharedPath deps st k) ++ "\n")) ∧
        (syncKindSymlinks shex claudePath sharedPath deps st k = [] →
          ((syncProjectLinks shex claudePath sharedPath deps st).dirs.get k).gitignore =
            match (st.get k).gitignore with
            | none => none
            | some c => if c.startsWith gitignoreHeader then none else some c) := by
  intro shex cp sp deps st k
  refine ⟨syncProjectLinks_gitignore shex cp sp deps st k, ?_, ?_, ?_⟩
  · intro n
    constructor
    · intro hmem
      rw [syncProjectLinks_dirs_get, syncOneKind_eq]
      exact syncDeps_symlinks_entry (shex k) k _ _ (deps.get k) _ n hmem
    · intro hfind
      obtain ⟨p, r, hfind⟩ := hfind
      rw [syncProjectLinks_dirs_get, syncOneKind_eq] at hfind
      dsimp only at hfind
      rcases syncDeps_entry_symlinks (shex k) k _ _ (deps.get k) _ n p r hfind with
        ⟨p', r', hold⟩ | hmem
      · exact absurd hold (fun hh => removeSym_no_symlink _ n p' r' hh)
      · exact hmem
  · intro hne
    rw [syncProjectLinks_gitignore shex cp sp deps st k,
      updateComponentGitignore.eq_def, if_neg hne]
  · intro heq
    rw [syncProjectLinks_gitignore shex cp sp deps st k, heq,
      updateComponentGitignore.eq_def, if_pos rfl]

/-- Witness for `claim_C8_gitignore_exact`: in a concrete sync creating the
single link `log`, the symlink accumulator is `["log"]` (non-empty), so the
ignore manifest is exactly the sentinel header followed by `log`. -/
theorem claim_C8_gitignore_exact_witness :
    syncKindSymlinks (fun _ _ => true) ⟨true, ["p", ".claude"]⟩ ⟨true, ["shared"]⟩
        ⟨["log"], [], [], []⟩ localFixture ComponentType.skills ≠ [] ∧
      ((syncProjectLinks (fun _ _ => true) ⟨true, ["p", ".claude"]⟩ ⟨true, ["shared"]⟩
          ⟨["log"], [], [], []⟩ localFixture).dirs.get ComponentType.skills).gitignore =
        some (gitignoreHeader ++
          String.intercalate "\n"
            (syncKindSymlinks (fun _ _ => true) ⟨true, ["p", ".claude"]⟩
              ⟨true, ["shared"]⟩ ⟨["log"], [], [], []⟩ localFixture
              ComponentType.skills) ++ "\n") :=
  ⟨by decide,
    (claim_C8_gitignore_exact (fun _ _ => true) ⟨true, ["p", ".claude"]⟩
      ⟨true, ["shared"]⟩ ⟨["log"], [], [], []⟩ localFixture
      ComponentType.skills).2.2.1 (by decide)⟩

/-- Fixture: a remote repository whose project declares skill `A` and whose
shared skill `A` declares a dependency on shared skill `B`. -/
def remoteChainRepo : Repo :=
  ⟨[((ComponentType.skills, "A"), some ⟨"A", singleKindDeps ComponentType.skills ["B"]⟩),
    ((ComponentType.skills, "B"), some ⟨"B", emptyDependencies⟩)]⟩

/-- Claim C7 (counterexample): the phase-3 sparse path list is built only
from the project's directly declared dependencies; a shared component
reachable through one component-metadata dependency edge (`B`, needed by the
declared dependency `A`) is in the spec's transitive path list but not in the
path list the code builds. -/
theorem claim_C7_transitive_counterexample :
    "shared/skills/B" ∈
        specPhase3TransitivePaths remoteChainRepo "projects" "shared" "demo"
          ⟨["A"], [], [], []⟩ ∧
      "shared/skills/B" ∉
        phase3Paths "projects" "shared" "demo" ⟨["A"], [], [], []⟩ := by
  decide

/-- Claim C7 (amended): the phase-3 path list consists of exactly the
project's directory plus one `"<sharedDir>/<kind>/<name>"` path per directly
declared dependency of the staged `project.json`; component metadata is not
consulted and no transitive expansion takes place in the sparse path. -/
theorem claim_C7_amended_direct_paths :
    ∀ (projectsDir sharedDir projectName : String) (deps : Dependencies) (p : String),
      p ∈ phase3Paths projectsDir sharedDir projectName deps ↔
        p = projectsDir ++ "/" ++ projectName ∨
          ∃ t n, n ∈ deps.get t ∧
            p = sharedDir ++ "/" ++ componentTypeStr t ++ "/" ++ n := by
  intro projectsDir sharedDir projectName deps p
  constructor
  · intro h
    rcases List.mem_cons.mp h with rfl | h'
    · exact Or.inl rfl
    · right
      rw [show (dependencyKeys deps).map
            (fun k => sharedDir ++ "/" ++ componentTypeStr k.1 ++ "/" ++ k.2) =
          (deps.skills.map (fun n =>
              sharedDir ++ "/" ++ componentTypeStr ComponentType.skills ++ "/" ++ n)) ++
            ((deps.agents.map (fun n =>
                sharedDir ++ "/" ++ componentTypeStr ComponentType.agents ++ "/" ++ n)) ++
              ((deps.hooks.map (fun n =>
                  sharedDir ++ "/" ++ componentTypeStr ComponentType.hooks ++ "/" ++ n)) ++
                (deps.rules.map (fun n =>
                  sharedDir ++ "/" ++ componentTypeStr ComponentType.rules ++ "/" ++ n))))
          from by
            simp only [dependencyKeys, List.map_append, List.map_map,
              Function.comp, List.append_assoc]
            rfl] at h'
      rcases List.mem_append.mp h' with h1 | h'
      · obtain ⟨n, hn, rfl⟩ := List.mem_map.mp h1
        exact ⟨ComponentType.skills, n, hn, rfl⟩
      · rcases List.mem_append.mp h' with h1 | h'
        · obtain ⟨n, hn, rfl⟩ := List.mem_map.mp h1
          exact ⟨ComponentType.agents, n, hn, rfl⟩
        · rcases List.mem_append.mp h' with h1 | h1
          · obtain ⟨n, hn, rfl⟩ := List.mem_map.mp h1
            exact ⟨ComponentType.hooks, n, hn, rfl⟩
          · obtain ⟨n, hn, rfl⟩ := List.mem_map.mp h1
            exact ⟨ComponentType.rules, n, hn, rfl⟩
  · rintro (rfl | ⟨t, n, hn, rfl⟩)
    · exact List.mem_cons_self _ _
    · apply List.mem_cons_of_mem
      apply List.mem_map.mpr
      refine ⟨(t, n), ?_, rfl⟩
      rw [dependencyKeys]
      cases t with
      | skills =>
          exact List.mem_append_left _ (List.mem_append_left _
            (List.mem_append_left _ (List.mem_map_of_mem _ hn)))
      | agents =>
          exact List.mem_append_left _ (List.mem_append_left _
            (List.mem_append_right _ (List.mem_map_of_mem _ hn)))
      | hooks =>
          exact List.mem_append_left _ (List.mem_append_right _ (List.mem_map_of_mem _ hn))
      | rules =>
          exact List.mem_append_right _ (List.mem_map_of_mem _ hn)
